import Mathlib

/-!
Verification of the conversation-reconstruction, indexing, retrieval and
clustering core of the cursor-explorer repository.

Texts are modelled as `List Char` (Python `str`), machine integers as `Nat`
or `Int`, floats used only additively/multiplicatively as `ℚ`, and the one
place where exact square roots matter (`l2_normalize`) over `ℝ`.
Each definition is a direct translation of the Python function of the same
name (module noted in its doc comment).
-/

namespace CursorExplorer

/-- ASCII portion of Python's default whitespace set used by
`str.strip()` / `str.split()`. -/
def isPySpace (c : Char) : Bool :=
  c = ' ' || c = '\t' || c = '\n' || c = '\r' || c = '\x0b' || c = '\x0c'

/-- Python `str.strip()`: drop whitespace from both ends. -/
def pyStrip (l : List Char) : List Char :=
  ((l.dropWhile isPySpace).reverse.dropWhile isPySpace).reverse

/-- Python `str.lower()` (the inputs in play are ASCII). -/
def pyLower (l : List Char) : List Char := l.map Char.toLower

/-- `parser._is_nonempty`: `bool(text and text.strip())`. -/
def isNonempty (t : List Char) : Bool := !t.isEmpty && !(pyStrip t).isEmpty

/-- The fields of a reconstructed message dict that the coalescing and
pairing code in `cursor_explorer/parser.py` reads. -/
structure Msg where
  composer_id : List Char
  role : List Char
  text : List Char
deriving DecidableEq, Repr

def userRole : List Char := ("user").data

def asstRole : List Char := ("assistant").data

def nl2 : List Char := ("\n\n").data

/-- Loop of `parser.coalesce_assistant_runs`; the first argument is the
`pending_assistant` buffer. -/
def coalesceGo : Option Msg → List Msg → List Msg
  | some p, [] => [p]
  | none, [] => []
  | pending, m :: rest =>
    if m.role = asstRole then
      if isNonempty m.text then
        match pending with
        | none => coalesceGo (some m) rest
        | some p => coalesceGo (some { p with text := pyStrip (p.text ++ nl2 ++ m.text) }) rest
      else coalesceGo pending rest
    else
      match pending with
      | some p => p :: m :: coalesceGo none rest
      | none => m :: coalesceGo none rest

/-- `parser.coalesce_assistant_runs`: merge consecutive assistant messages,
dropping empty assistant messages. -/
def coalesce_assistant_runs (messages : List Msg) : List Msg :=
  coalesceGo none messages

/-- One emitted turn pair (`parser.build_qa_pairs` output dict). -/
structure Pair where
  composer_id : List Char
  turn_index : Nat
  user : List Char
  assistant : List Char
deriving DecidableEq, Repr

def pairUser : Option Msg → List Char
  | some u => u.text
  | none => []

def pairCid (fallback : List Char) : Option Msg → List Char
  | some u => u.composer_id
  | none => fallback

/-- Loop of `parser.build_qa_pairs` over the coalesced messages; `fb` is the
composer-id fallback taken from the original message list, `cu` the current
user message, `acc` the accumulated assistant texts, `t` the next turn index. -/
def buildGo (fb : List Char) : Option Msg → List (List Char) → Nat → List Msg → List Pair
  | cu, acc, t, [] =>
    if cu.isSome || !acc.isEmpty then
      [{ composer_id := pairCid fb cu, turn_index := t,
         user := pairUser cu, assistant := pyStrip (List.intercalate nl2 acc) }]
    else []
  | cu, acc, t, m :: rest =>
    if m.role = userRole then
      if cu.isSome || !acc.isEmpty then
        { composer_id := pairCid m.composer_id cu, turn_index := t,
          user := pairUser cu, assistant := pyStrip (List.intercalate nl2 acc) }
          :: buildGo fb (some m) [] (t + 1) rest
      else buildGo fb (some m) [] t rest
    else if m.role = asstRole then
      if isNonempty m.text then buildGo fb cu (acc ++ [m.text]) t rest
      else buildGo fb cu acc t rest
    else buildGo fb cu acc t rest

/-- `parser.build_qa_pairs`: coalesce assistant runs, then fold the messages
into user/assistant turn pairs with increasing turn indices. -/
def build_qa_pairs (messages : List Msg) : List Pair :=
  buildGo
    (match messages with
     | [] => []
     | m :: _ => m.composer_id)
    none [] 0 (coalesce_assistant_runs messages)

/-- Well-formed alternating conversation: when the flag is `true` a user
message is expected next, roles alternate, and every text is non-empty
(also after stripping). -/
def altB : Bool → List Msg → Bool
  | _, [] => true
  | b, m :: rest =>
    (if b then decide (m.role = userRole) else decide (m.role = asstRole))
    && isNonempty m.text && altB (!b) rest

theorem pyStrip_eq_rdropWhile (l : List Char) :
    pyStrip l = List.rdropWhile isPySpace (List.dropWhile isPySpace l) := rfl

theorem dropWhile_eq_self_of_pyStrip (l : List Char) (h : pyStrip l = l) :
    List.dropWhile isPySpace l = l := by
  have hsuf : List.dropWhile isPySpace l <:+ l := List.dropWhile_suffix _
  have hpre : pyStrip l <+: List.dropWhile isPySpace l := by
    rw [pyStrip_eq_rdropWhile]
    exact List.rdropWhile_prefix _ _
  rw [h] at hpre
  have hlen : l.length ≤ (List.dropWhile isPySpace l).length := hpre.sublist.length_le
  exact hsuf.eq_of_length (Nat.le_antisymm hsuf.sublist.length_le hlen)

theorem rdropWhile_eq_self_of_pyStrip (l : List Char) (h : pyStrip l = l) :
    List.rdropWhile isPySpace l = l := by
  have h2 := dropWhile_eq_self_of_pyStrip l h
  rw [pyStrip_eq_rdropWhile, h2] at h
  exact h

/-- Stripping does nothing to `a ++ x ++ b` when `a` and `b` are non-empty and
themselves strip-invariant: only the two ends of a string are ever stripped. -/
theorem pyStrip_append_of_ends (a x b : List Char)
    (ha : pyStrip a = a) (ha0 : a ≠ []) (hb : pyStrip b = b) (hb0 : b ≠ []) :
    pyStrip (a ++ x ++ b) = a ++ x ++ b := by
  rw [pyStrip_eq_rdropWhile]
  obtain ⟨c, a', rfl⟩ := List.exists_cons_of_ne_nil ha0
  have hdropa := dropWhile_eq_self_of_pyStrip _ ha
  have hc : isPySpace c = false := by
    by_contra hc
    rw [List.dropWhile_cons, if_pos (by simpa using hc)] at hdropa
    have hlen := congrArg List.length hdropa
    have hle := (List.dropWhile_suffix (l := a') isPySpace).sublist.length_le
    simp at hlen
    omega
  have hdrop : List.dropWhile isPySpace ((c :: a') ++ x ++ b) = (c :: a') ++ x ++ b := by
    rw [List.cons_append, List.cons_append, List.dropWhile_cons, if_neg (by simp [hc])]
  rw [hdrop]
  rcases List.eq_nil_or_concat' b with rfl | ⟨b', d, rfl⟩
  · exact absurd rfl hb0
  have hrb := rdropWhile_eq_self_of_pyStrip _ hb
  have hd : ¬ (isPySpace d = true) := by
    intro hd
    rw [List.rdropWhile_concat, if_pos hd] at hrb
    have hlen := congrArg List.length hrb
    have hle := (List.rdropWhile_prefix isPySpace b').sublist.length_le
    simp at hlen
    omega
  calc List.rdropWhile isPySpace ((c :: a') ++ x ++ (b' ++ [d]))
      = List.rdropWhile isPySpace (((c :: a') ++ x ++ b') ++ [d]) := by
        simp [List.append_assoc]
    _ = ((c :: a') ++ x ++ b') ++ [d] := List.rdropWhile_concat_neg _ _ _ hd
    _ = (c :: a') ++ x ++ (b' ++ [d]) := by simp [List.append_assoc]

theorem isNonempty_of_pyStrip (t : List Char) (h : pyStrip t = t) (h0 : t ≠ []) :
    isNonempty t = true := by
  simp [isNonempty, h, List.isEmpty_iff, h0]

theorem coalesceGo_none_cons (m : Msg) (rest : List Msg) :
    coalesceGo none (m :: rest) =
      if m.role = asstRole then
        if isNonempty m.text then coalesceGo (some m) rest else coalesceGo none rest
      else m :: coalesceGo none rest := rfl

theorem coalesceGo_some_cons (p : Msg) (m : Msg) (rest : List Msg) :
    coalesceGo (some p) (m :: rest) =
      if m.role = asstRole then
        if isNonempty m.text then
          coalesceGo (some { p with text := pyStrip (p.text ++ nl2 ++ m.text) }) rest
        else coalesceGo (some p) rest
      else p :: m :: coalesceGo none rest := rfl

theorem coalesceGo_some_nil (p : Msg) : coalesceGo (some p) [] = [p] := rfl

/-- Skipping lemma for the coalescing loop: a whitespace-only assistant message
is ignored in every state of the loop. -/
theorem coalesceGo_skip (e : Msg) (he : e.role = asstRole)
    (hee : isNonempty e.text = false) :
    ∀ (l r : List Msg) (pending : Option Msg),
      coalesceGo pending (l ++ e :: r) = coalesceGo pending (l ++ r) := by
  intro l
  induction l with
  | nil =>
    intro r pending
    simp only [List.nil_append]
    cases pending with
    | none => rw [coalesceGo_none_cons]; simp [he, hee]
    | some p => rw [coalesceGo_some_cons]; simp [he, hee]
  | cons m l ih =>
    intro r pending
    simp only [List.cons_append]
    cases pending with
    | none =>
      rw [coalesceGo_none_cons, coalesceGo_none_cons]
      by_cases hrole : m.role = asstRole
      · simp only [if_pos hrole]
        by_cases hne : isNonempty m.text = true
        · simp only [if_pos hne]; exact ih r _
        · simp only [if_neg hne]; exact ih r none
      · simp only [if_neg hrole]
        rw [ih r none]
    | some p =>
      rw [coalesceGo_some_cons, coalesceGo_some_cons]
      by_cases hrole : m.role = asstRole
      · simp only [if_pos hrole]
        by_cases hne : isNonempty m.text = true
        · simp only [if_pos hne]; exact ih r _
        · simp only [if_neg hne]; exact ih r _
      · simp only [if_neg hrole]
        rw [ih r none]

/-- Claim C2: coalescing three consecutive non-empty assistant messages with
texts A, B, C produces one assistant message whose text is the
newline-joined concatenation `A \n\n B \n\n C` in original order, and a
whitespace-only assistant message interleaved anywhere is dropped before
coalescing: removing it does not change the output of
`coalesce_assistant_runs`, so it appears in no output and never acts as a
turn boundary. -/
theorem c2_coalesce_three_and_drop_empty (m1 m2 m3 e : Msg)
    (h1 : m1.role = asstRole) (h2 : m2.role = asstRole) (h3 : m3.role = asstRole)
    (hs1 : pyStrip m1.text = m1.text) (h01 : m1.text ≠ [])
    (hs2 : pyStrip m2.text = m2.text) (h02 : m2.text ≠ [])
    (hs3 : pyStrip m3.text = m3.text) (h03 : m3.text ≠ [])
    (he : e.role = asstRole) (hee : isNonempty e.text = false) :
    coalesce_assistant_runs [m1, m2, m3]
      = [{ m1 with text := m1.text ++ nl2 ++ m2.text ++ nl2 ++ m3.text }]
    ∧ ∀ (l r : List Msg),
        coalesce_assistant_runs (l ++ e :: r) = coalesce_assistant_runs (l ++ r) := by
  constructor
  · have hne1 := isNonempty_of_pyStrip _ hs1 h01
    have hne2 := isNonempty_of_pyStrip _ hs2 h02
    have hne3 := isNonempty_of_pyStrip _ hs3 h03
    have hstep1 : pyStrip (m1.text ++ nl2 ++ m2.text) = m1.text ++ nl2 ++ m2.text :=
      pyStrip_append_of_ends _ _ _ hs1 h01 hs2 h02
    have h012 : m1.text ++ nl2 ++ m2.text ≠ [] := by
      simp [h01]
    have hstep2 : pyStrip (m1.text ++ nl2 ++ m2.text ++ nl2 ++ m3.text)
        = m1.text ++ nl2 ++ m2.text ++ nl2 ++ m3.text :=
      pyStrip_append_of_ends _ _ _ hstep1 h012 hs3 h03
    show coalesceGo none [m1, m2, m3] = _
    rw [coalesceGo_none_cons, if_pos h1, if_pos hne1,
      coalesceGo_some_cons, if_pos h2, if_pos hne2, hstep1,
      coalesceGo_some_cons, if_pos h3, if_pos hne3, coalesceGo_some_nil]
    have hstep2' := hstep2
    simp only [List.append_assoc] at hstep2'
    simp [hstep2']
  · intro l r
    exact coalesceGo_skip e he hee l r none

/-- Concrete run of Claim C2's theorem at texts "A", "B", "C" and a
whitespace-only assistant message. -/
theorem c2_coalesce_three_and_drop_empty_witness :
    coalesce_assistant_runs
        [⟨("c").data, asstRole, ("A").data⟩, ⟨("c").data, asstRole, ("B").data⟩,
         ⟨("c").data, asstRole, ("C").data⟩]
      = [⟨("c").data, asstRole, ("A\n\nB\n\nC").data⟩]
    ∧ coalesce_assistant_runs
        ([⟨("c").data, userRole, ("hi").data⟩] ++ ⟨("c").data, asstRole, (" ").data⟩ :: [])
      = coalesce_assistant_runs ([⟨("c").data, userRole, ("hi").data⟩] ++ []) := by
  have h := c2_coalesce_three_and_drop_empty
    ⟨("c").data, asstRole, ("A").data⟩ ⟨("c").data, asstRole, ("B").data⟩
    ⟨("c").data, asstRole, ("C").data⟩ ⟨("c").data, asstRole, (" ").data⟩
    rfl rfl rfl (by decide) (by decide) (by decide) (by decide) (by decide) (by decide)
    rfl (by decide)
  exact ⟨h.1.trans (by decide), h.2 [⟨("c").data, userRole, ("hi").data⟩] []⟩

theorem altB_cons (b : Bool) (m : Msg) (rest : List Msg) :
    altB b (m :: rest) =
      ((if b then decide (m.role = userRole) else decide (m.role = asstRole))
        && isNonempty m.text && altB (!b) rest) := rfl

/-- On an alternating conversation the coalescing pass is the identity:
every assistant run is a singleton. -/
theorem coalesceGo_alt (msgs : List Msg) :
    (∀ b, altB b msgs = true → coalesceGo none msgs = msgs)
    ∧ (altB true msgs = true → ∀ p, coalesceGo (some p) msgs = p :: msgs) := by
  induction msgs with
  | nil => exact ⟨fun _ _ => rfl, fun _ _ => rfl⟩
  | cons m rest ih =>
    constructor
    · intro b hb
      rw [altB_cons] at hb
      simp only [Bool.and_eq_true] at hb
      obtain ⟨⟨hrole, hne⟩, hrest⟩ := hb
      cases b with
      | true =>
        simp only [if_true, decide_eq_true_eq] at hrole
        rw [coalesceGo_none_cons, if_neg (by rw [hrole]; decide)]
        rw [ih.1 false hrest]
      | false =>
        simp only [Bool.false_eq_true, if_false, decide_eq_true_eq] at hrole
        rw [coalesceGo_none_cons, if_pos hrole, if_pos hne]
        exact ih.2 hrest m
    · intro hb p
      rw [altB_cons] at hb
      simp only [if_true, Bool.and_eq_true, decide_eq_true_eq] at hb
      obtain ⟨⟨hrole, hne⟩, hrest⟩ := hb
      rw [coalesceGo_some_cons, if_neg (by rw [hrole]; decide)]
      rw [ih.1 false hrest]

theorem buildGo_nil (fb : List Char) (cu : Option Msg) (acc : List (List Char)) (t : Nat) :
    buildGo fb cu acc t [] =
      if cu.isSome || !acc.isEmpty then
        [{ composer_id := pairCid fb cu, turn_index := t,
           user := pairUser cu, assistant := pyStrip (List.intercalate nl2 acc) }]
      else [] := rfl

theorem buildGo_cons (fb : List Char) (cu : Option Msg) (acc : List (List Char)) (t : Nat)
    (m : Msg) (rest : List Msg) :
    buildGo fb cu acc t (m :: rest) =
      if m.role = userRole then
        if cu.isSome || !acc.isEmpty then
          { composer_id := pairCid m.composer_id cu, turn_index := t,
            user := pairUser cu, assistant := pyStrip (List.intercalate nl2 acc) }
            :: buildGo fb (some m) [] (t + 1) rest
        else buildGo fb (some m) [] t rest
      else if m.role = asstRole then
        if isNonempty m.text then buildGo fb cu (acc ++ [m.text]) t rest
        else buildGo fb cu acc t rest
      else buildGo fb cu acc t rest := rfl

/-- Pair-counting invariant for the `build_qa_pairs` loop on an alternating
suffix: from a state holding a current user (and zero or one buffered
assistant text), the loop emits `1 + ⌊n/2⌋` (resp. `1 + ⌊(n+1)/2⌋`) further
pairs, with consecutive turn indices starting at the state's counter. -/
theorem buildGo_alt (msgs : List Msg) :
    (altB false msgs = true → ∀ fb u t,
      (buildGo fb (some u) [] t msgs).length = 1 + msgs.length / 2
      ∧ ∀ i (hi : i < (buildGo fb (some u) [] t msgs).length),
          ((buildGo fb (some u) [] t msgs).get ⟨i, hi⟩).turn_index = t + i)
    ∧ (altB true msgs = true → ∀ fb u tx t,
      (buildGo fb (some u) [tx] t msgs).length = 1 + (msgs.length + 1) / 2
      ∧ ∀ i (hi : i < (buildGo fb (some u) [tx] t msgs).length),
          ((buildGo fb (some u) [tx] t msgs).get ⟨i, hi⟩).turn_index = t + i) := by
  induction msgs with
  | nil =>
    constructor
    · intro _ fb u t
      refine ⟨rfl, ?_⟩
      intro i hi
      have h1 : i < 1 := hi
      have hz : i = 0 := Nat.lt_one_iff.mp h1
      subst hz
      rfl
    · intro _ fb u tx t
      refine ⟨rfl, ?_⟩
      intro i hi
      have h1 : i < 1 := hi
      have hz : i = 0 := Nat.lt_one_iff.mp h1
      subst hz
      rfl
  | cons m rest ih =>
    constructor
    · intro hb fb u t
      rw [altB_cons] at hb
      simp only [Bool.false_eq_true, if_false, Bool.and_eq_true, decide_eq_true_eq] at hb
      obtain ⟨⟨hrole, hne⟩, hrest⟩ := hb
      rw [buildGo_cons, if_neg (by rw [hrole]; decide), if_pos hrole, if_pos hne]
      have h2 := (ih.2 hrest) fb u m.text t
      refine ⟨?_, ?_⟩
      · show (buildGo fb (some u) [m.text] t rest).length = 1 + (m :: rest).length / 2
        rw [h2.1, List.length_cons]
      · intro i hi
        exact h2.2 i hi
    · intro hb fb u tx t
      rw [altB_cons] at hb
      simp only [if_true, Bool.and_eq_true, decide_eq_true_eq] at hb
      obtain ⟨⟨hrole, _⟩, hrest⟩ := hb
      rw [buildGo_cons, if_pos hrole,
        if_pos (show ((some u).isSome || !(([tx] : List (List Char)).isEmpty)) = true from rfl)]
      have h1 := (ih.1 hrest) fb m (t + 1)
      refine ⟨?_, ?_⟩
      · rw [List.length_cons, h1.1]
        simp only [List.length_cons]
        omega
      · intro i hi
        cases i with
        | zero => simp
        | succ j =>
          rw [List.get_cons_succ]
          have := h1.2 j (by simpa using hi)
          rw [this]
          omega

/-- Claim C1: for a conversation of `n` well-formed alternating
user/assistant messages (user first, all texts non-empty),
`build_qa_pairs` yields exactly `⌈n/2⌉` turn pairs and the `turn_index`
of the `i`-th emitted pair is `i` (0, 1, 2, ... in emission order). -/
theorem c1_alternating_turn_pairs (messages : List Msg)
    (h : altB true messages = true) :
    (build_qa_pairs messages).length = (messages.length + 1) / 2
    ∧ ∀ i (hi : i < (build_qa_pairs messages).length),
        ((build_qa_pairs messages).get ⟨i, hi⟩).turn_index = i := by
  have hco : coalesce_assistant_runs messages = messages :=
    (coalesceGo_alt messages).1 true h
  cases messages with
  | nil =>
    refine ⟨rfl, ?_⟩
    intro i hi
    simp [build_qa_pairs, coalesce_assistant_runs, coalesceGo, buildGo] at hi
  | cons m rest =>
    rw [altB_cons] at h
    simp only [if_true, Bool.and_eq_true] at h
    obtain ⟨⟨hrole, _⟩, hrest⟩ := h
    have hu : m.role = userRole := of_decide_eq_true hrole
    have hb : build_qa_pairs (m :: rest) = buildGo m.composer_id (some m) [] 0 rest := by
      unfold build_qa_pairs
      rw [hco, buildGo_cons, if_pos hu, if_neg (by decide)]
    have h1 := (buildGo_alt rest).1 hrest m.composer_id m 0
    rw [hb]
    refine ⟨?_, ?_⟩
    · rw [h1.1]
      simp only [List.length_cons]
      omega
    · intro i hi
      have := h1.2 i hi
      omega

/-- Concrete run of Claim C1's theorem on a 3-message alternating
conversation: 2 = ⌈3/2⌉ pairs are produced. -/
theorem c1_alternating_turn_pairs_witness :
    (build_qa_pairs
      [⟨("c").data, userRole, ("q1").data⟩, ⟨("c").data, asstRole, ("a1").data⟩,
       ⟨("c").data, userRole, ("q2").data⟩]).length = 2 := by
  have h := c1_alternating_turn_pairs
    [⟨("c").data, userRole, ("q1").data⟩, ⟨("c").data, asstRole, ("a1").data⟩,
     ⟨("c").data, userRole, ("q2").data⟩] (by decide)
  exact h.1.trans (by decide)

/-- Helper for `pySplitWs`: `acc` is the (reversed) token being built. -/
def splitWsAux : List Char → List Char → List (List Char)
  | [], acc => if acc.isEmpty then [] else [acc.reverse]
  | c :: rest, acc =>
    if isPySpace c then
      if acc.isEmpty then splitWsAux rest [] else acc.reverse :: splitWsAux rest []
    else splitWsAux rest (c :: acc)

/-- Python `str.split()` with no argument: split on whitespace runs,
never emitting empty tokens. -/
def pySplitWs (l : List Char) : List (List Char) := splitWsAux l []

/-- `rag._score`: count of case-folded whitespace-split query tokens that
occur as literal substrings of the case-folded text
(`sum(1 for token in q if token and token in low)`). -/
def rag_score (query text : List Char) : Nat :=
  (pySplitWs (pyLower query)).countP
    (fun token => !token.isEmpty && decide (token <:+: pyLower text))

theorem splitWsAux_ne_nil :
    ∀ (l acc : List Char) (t : List Char), t ∈ splitWsAux l acc → t ≠ [] := by
  intro l
  induction l with
  | nil =>
    intro acc t ht
    rw [splitWsAux] at ht
    by_cases ha : acc.isEmpty
    · simp [ha] at ht
    · simp [ha] at ht
      subst ht
      simp [List.isEmpty_iff] at ha
      simpa using ha
  | cons c rest ih =>
    intro acc t ht
    rw [splitWsAux] at ht
    by_cases hc : isPySpace c = true
    · simp only [if_pos hc] at ht
      by_cases ha : acc.isEmpty
      · simp only [if_pos ha] at ht
        exact ih [] t ht
      · simp only [if_neg ha, List.mem_cons] at ht
        rcases ht with rfl | ht
        · simp [List.isEmpty_iff] at ha
          simpa using ha
        · exact ih [] t ht
    · simp only [if_neg hc] at ht
      exact ih (c :: acc) t ht

/-- Claim C5: the sparse score equals the count of whitespace-split,
case-folded query tokens occurring as substrings of the case-folded text
(the emptiness test on tokens is vacuous), it is zero exactly when no
query token is a substring, and the scenario score("hello world",
"say hello to everyone") = 1 holds. Non-negativity is inherent: the score
is a `Nat`-valued count of matching tokens. -/
theorem c5_sparse_score (query text : List Char) :
    rag_score query text
      = (pySplitWs (pyLower query)).countP (fun token => decide (token <:+: pyLower text))
    ∧ (rag_score query text = 0 ↔
        ∀ token ∈ pySplitWs (pyLower query), ¬ (token <:+: pyLower text))
    ∧ rag_score (("hello world").data) (("say hello to everyone").data) = 1 := by
  have hcong : rag_score query text
      = (pySplitWs (pyLower query)).countP (fun token => decide (token <:+: pyLower text)) := by
    apply List.countP_congr
    intro token htok
    have hne := splitWsAux_ne_nil (pyLower query) [] token htok
    simp [List.isEmpty_iff, hne]
  refine ⟨hcong, ?_, by decide⟩
  rw [hcong, List.countP_eq_zero]
  constructor
  · intro h token htok
    have := h token htok
    simpa using this
  · intro h token htok
    simpa using h token htok

/-- Parsed JSON documents stored in the key-value store (the output type of
`json.loads`); object keys are strings, numbers are modelled exactly. -/
inductive Json where
  | null : Json
  | bool (b : Bool) : Json
  | num (q : ℚ) : Json
  | str (s : List Char) : Json
  | arr (items : List Json) : Json
  | obj (entries : List (List Char × Json)) : Json

/-- Python truthiness (`if not x`) on parsed JSON values. -/
def truthy : Json → Bool
  | Json.null => false
  | Json.bool b => b
  | Json.num q => decide (q ≠ 0)
  | Json.str s => !s.isEmpty
  | Json.arr items => !items.isEmpty
  | Json.obj entries => !entries.isEmpty

/-- `dict.get` on a parsed JSON object; `none` for absent keys. Python
raises `AttributeError` when `.get` is reached on a non-dict, so every call
site below matches on `Json.obj` first and models that path as an explicit
error; the non-object branch here is unreachable from those sites. -/
def Json.get : Json → List Char → Option Json
  | Json.obj entries, k => entries.lookup k
  | _, _ => none

mutual

/-- `parser._walk_dict`: depth-first key/value pairs, dict entries in order,
each entry followed by the walk of its value; lists walk their items. -/
def walkDict : Json → List (List Char × Json)
  | Json.obj entries => walkObj entries
  | Json.arr items => walkArr items
  | _ => []

def walkObj : List (List Char × Json) → List (List Char × Json)
  | [] => []
  | (k, v) :: rest => (k, v) :: (walkDict v ++ walkObj rest)

def walkArr : List Json → List (List Char × Json)
  | [] => []
  | v :: rest => walkDict v ++ walkArr rest

end

/-- Key substrings that mark a field as a repository-hint candidate. -/
def key_pat : List (List Char) :=
  [("repo").data, ("repository").data, ("git").data, ("workspace").data,
   ("root").data, ("cwd").data, ("path").data, ("url").data]

/-- Candidate collection loop of `parser.extract_repo_hint`: non-empty string
values whose (lowered) key contains one of the patterns, in walk order. -/
def candidatesOf (c : Json) : List (List Char) :=
  (walkDict c).filterMap fun kv =>
    match kv.2 with
    | Json.str v =>
      if key_pat.any (fun p => decide (p <:+: pyLower kv.1)) && !v.isEmpty then some v
      else none
    | _ => none

def isGitLike (s : List Char) : Bool :=
  decide ((("github.com").data) <:+: pyLower s) || ((".git").data).isSuffixOf (pyLower s)

def isPathLike (s : List Char) : Bool := s.contains '/' || s.contains '\\'

/-- First component of the `score` key in `extract_repo_hint`:
git remotes (2) over separator-bearing paths (1) over bare strings (0). -/
def candRank (s : List Char) : Nat :=
  if isGitLike s then 2 else if isPathLike s then 1 else 0

/-- Descending comparison on the code's `(rank, -len)` sort key; ties keep
input order. -/
def candGe (a b : List Char) : Bool :=
  decide (candRank b < candRank a)
  || (decide (candRank a = candRank b) && decide (-(b.length : Int) ≤ -(a.length : Int)))

def insertCand (a : List Char) : List (List Char) → List (List Char)
  | [] => [a]
  | x :: xs => if candGe a x then a :: x :: xs else x :: insertCand a xs

/-- `candidates.sort(key=score, reverse=True)`: a stable descending sort by
the score key (insertion sort; extensionally equal to Python's stable sort
for this total preorder). -/
def sortCands : List (List Char) → List (List Char)
  | [] => []
  | a :: rest => insertCand a (sortCands rest)

/-- Python `val.rstrip("/")`. -/
def pyRStripSlash (v : List Char) : List Char :=
  (v.reverse.dropWhile (fun c => c = '/')).reverse

/-- Body of the per-candidate loop in `extract_repo_hint`: URL-shaped
candidates yield the last segment with a `.git` suffix removed, path-shaped
candidates the last two non-empty segments; otherwise fall through. -/
def hintOfCand (s : List Char) : Option (List Char) :=
  let val := pyStrip s
  let low := pyLower val
  if (("github.com").data) <:+: low then
    match ((pyRStripSlash val).splitOn '/').getLast? with
    | some name =>
      some (if ((".git").data).isSuffixOf name then name.take (name.length - 4) else name)
    | none => none
  else if val.contains '/' || val.contains '\\' then
    let sep : Char := if val.contains '/' then '/' else '\\'
    let parts := (val.splitOn sep).filter (fun p => !p.isEmpty)
    match parts.reverse with
    | [] => none
    | [p1] => some p1
    | p1 :: p2 :: _ => some (p2 ++ ('/' :: p1))
  else none

def firstHint : List (List Char) → Option (List Char)
  | [] => none
  | v :: rest =>
    match hintOfCand v with
    | some h => some h
    | none => firstHint rest

/-- `parser.extract_repo_hint`: collect candidates, sort by rank, and return
the first candidate that yields a hint (falling back to the first sorted
candidate as-is). -/
def extract_repo_hint : Option Json → Option (List Char)
  | none => none
  | some c =>
    if truthy c then
      match firstHint (sortCands (candidatesOf c)) with
      | some h => some h
      | none => (sortCands (candidatesOf c)).head?
    else none

theorem candGe_total (a b : List Char) : candGe a b = true ∨ candGe b a = true := by
  simp only [candGe, Bool.or_eq_true, Bool.and_eq_true, decide_eq_true_eq]
  omega

theorem candGe_trans (a b c : List Char)
    (hab : candGe a b = true) (hbc : candGe b c = true) : candGe a c = true := by
  simp only [candGe, Bool.or_eq_true, Bool.and_eq_true, decide_eq_true_eq] at hab hbc ⊢
  omega

theorem mem_insertCand (a y : List Char) :
    ∀ l, y ∈ insertCand a l ↔ y = a ∨ y ∈ l := by
  intro l
  induction l with
  | nil => simp [insertCand]
  | cons x xs ih =>
    rw [insertCand]
    by_cases h : candGe a x = true
    · rw [if_pos h]
      simp only [List.mem_cons]
    · rw [if_neg h]
      rw [List.mem_cons, ih, List.mem_cons]
      tauto

theorem pairwise_insertCand (a : List Char) (l : List (List Char))
    (hl : List.Pairwise (fun x y => candGe x y = true) l) :
    List.Pairwise (fun x y => candGe x y = true) (insertCand a l) := by
  induction l with
  | nil => simp [insertCand]
  | cons x xs ih =>
    rw [List.pairwise_cons] at hl
    obtain ⟨hx, hxs⟩ := hl
    rw [insertCand]
    by_cases h : candGe a x = true
    · rw [if_pos h]
      refine List.Pairwise.cons ?_ (List.Pairwise.cons hx hxs)
      intro y hy
      rcases List.mem_cons.mp hy with rfl | hy
      · exact h
      · exact candGe_trans a x y h (hx y hy)
    · rw [if_neg h]
      refine List.Pairwise.cons ?_ (ih hxs)
      intro y hy
      rcases (mem_insertCand a y xs).mp hy with rfl | hy
      · rcases candGe_total y x with hyx | hxy
        · exact absurd hyx h
        · exact hxy
      · exact hx y hy

theorem sortCands_pairwise (l : List (List Char)) :
    List.Pairwise (fun x y => candGe x y = true) (sortCands l) := by
  induction l with
  | nil => simp [sortCands]
  | cons a rest ih => exact pairwise_insertCand a (sortCands rest) ih

/-- Claim C9: a candidate field `https://github.com/org/myrepo.git` yields the
hint `myrepo` (last URL segment, `.git` stripped); a filesystem path
`/home/u/projects/foo/bar` yields `foo/bar` (last two segments); and the
candidate sort ranks git-remote-like candidates (rank 2) above path-like
ones (rank 1) above bare strings (rank 0): ranks are non-increasing along
the sorted candidate list. -/
theorem c9_repo_hint_extraction :
    extract_repo_hint (some (Json.obj [(("url").data,
        Json.str (("https://github.com/org/myrepo.git").data))])) = some (("myrepo").data)
    ∧ extract_repo_hint (some (Json.obj [(("cwd").data,
        Json.str (("/home/u/projects/foo/bar").data))])) = some (("foo/bar").data)
    ∧ (∀ s, candRank s = if isGitLike s then 2 else if isPathLike s then 1 else 0)
    ∧ ∀ (cands : List (List Char)),
        List.Pairwise (fun a b => candRank b ≤ candRank a) (sortCands cands) := by
  refine ⟨by rfl, by rfl, fun s => rfl, ?_⟩
  intro cands
  refine (sortCands_pairwise cands).imp ?_
  intro a b h
  simp only [candGe, Bool.or_eq_true, Bool.and_eq_true, decide_eq_true_eq] at h
  omega

/-- The two key-value namespaces consumed by the reconstructor, with the key
formatting folded in: `composers cid` is `kv_value` at `composerData:<cid>`
and `bubbles cid bid` is `kv_value` at `bubbleId:<cid>:<bid>`. The outer
`Option` is key presence; the inner `Option Json` is the `parse_json` result
of the stored raw value (`none` = not valid JSON). -/
structure Store where
  composers : String → Option (Option Json)
  bubbles : String → Json → Option (Option Json)

/-- `parser.load_composer`: `none` when the key is absent, otherwise the
`parse_json` result. -/
def load_composer (st : Store) (cid : String) : Option Json :=
  match st.composers cid with
  | none => none
  | some parsed => parsed

/-- `parser.load_bubble`. -/
def load_bubble (st : Store) (cid : String) (bid : Json) : Option Json :=
  match st.bubbles cid bid with
  | none => none
  | some parsed => parsed

/-- Python `x == 1` on an optional JSON value (`1.0` and `True` also
compare equal to `1` in Python). -/
def pyEqOne : Option Json → Bool
  | some (Json.num q) => decide (q = 1)
  | some (Json.bool b) => b
  | _ => false

/-- `parser.bubble_role`: kind code 1 is `user`, everything else
`assistant`. -/
def bubble_role (bubble_type : Option Json) : List Char :=
  if pyEqOne bubble_type then userRole else asstRole

/-- `bubble.get("content") or ""`, reached only when `bubble` is a dict
(the non-dict path of the caller is an explicit error). -/
def contentOrEmpty (bubble : Json) : Json :=
  match bubble.get (("content").data) with
  | some v => if truthy v then v else Json.str []
  | none => Json.str []

/-- Text selection in `parser.reconstruct_conversation`: prefer a truthy
`text` field, fall back to `content`, default to the empty string. For a
truthy non-dict bubble, `text` is `None` and the unguarded
`bubble.get("content")` at parser.py line 68 raises `AttributeError`,
modelled as `Except.error`. -/
def bubbleTextE (bubble : Json) : Except Unit Json :=
  match bubble with
  | Json.obj entries =>
    let t1 : Json :=
      match (Json.obj entries).get (("text").data) with
      | some v => if truthy v then v else contentOrEmpty (Json.obj entries)
      | none => contentOrEmpty (Json.obj entries)
    Except.ok (if truthy t1 then t1 else Json.str [])
  | _ => Except.error ()

/-- One reconstructed message dict (output of
`parser.reconstruct_conversation`). -/
structure BMsg where
  composer_id : String
  bubble_id : Json
  server_bubble_id : Option Json
  role : List Char
  text : Json

/-- Header extraction over the elements of the headers list: a non-dict
element makes `h.get("bubbleId")` raise, aborting the whole generator. -/
def extractHeaders : List Json → Except Unit (List (Json × Option Json × Option Json))
  | [] => Except.ok []
  | h :: rest =>
    match h with
    | Json.obj entries =>
      match extractHeaders rest with
      | Except.error e => Except.error e
      | Except.ok hs =>
        Except.ok
          (match (Json.obj entries).get (("bubbleId").data) with
           | some bid =>
             if truthy bid then
               (bid, (Json.obj entries).get (("type").data),
                (Json.obj entries).get (("serverBubbleId").data)) :: hs
             else hs
           | none => hs)
    | _ => Except.error ()

/-- `parser.iter_bubble_headers`: triples (bubbleId, type, serverBubbleId)
of the headers with a truthy `bubbleId`. A truthy non-dict composer makes
`composer_obj.get` raise; a truthy non-list headers value raises when
iterated (directly, or via `h.get` on its elements). The generator is
interleaved with message processing in Python, but any raise discards the
entire result, so extracting headers first is observationally equal. -/
def iter_bubble_headersE (composer : Json) :
    Except Unit (List (Json × Option Json × Option Json)) :=
  match composer with
  | Json.obj entries =>
    match
      (match (Json.obj entries).get (("fullConversationHeadersOnly").data) with
       | some h => if truthy h then h else Json.arr []
       | none => Json.arr [])
    with
    | Json.arr hs => extractHeaders hs
    | _ => Except.error ()
  | _ => Except.error ()

/-- Message-building loop of `parser.reconstruct_conversation`: one header
contributes one message unless its bubble blob is absent, unparseable or
falsy, in which case it is skipped (`continue`); a present, truthy non-dict
blob raises at the content fallback and aborts the whole loop. -/
def msgsFromHeadersE (st : Store) (cid : String) :
    List (Json × Option Json × Option Json) → Except Unit (List BMsg)
  | [] => Except.ok []
  | h :: rest =>
    match load_bubble st cid h.1 with
    | none => msgsFromHeadersE st cid rest
    | some bubble =>
      if truthy bubble then
        match bubbleTextE bubble with
        | Except.error e => Except.error e
        | Except.ok text =>
          match msgsFromHeadersE st cid rest with
          | Except.error e => Except.error e
          | Except.ok msgs =>
            Except.ok
              ({ composer_id := cid, bubble_id := h.1, server_bubble_id := h.2.2,
                 role := bubble_role h.2.1, text := text } :: msgs)
      else msgsFromHeadersE st cid rest

/-- `parser.reconstruct_conversation`; `Except.error` is an uncaught Python
exception escaping the function. -/
def reconstruct_conversation (st : Store) (cid : String) : Except Unit (List BMsg) :=
  match load_composer st cid with
  | none => Except.ok []
  | some composer =>
    if truthy composer then
      match iter_bubble_headersE composer with
      | Except.error e => Except.error e
      | Except.ok headers => msgsFromHeadersE st cid headers
    else Except.ok []

/-- Counterexample to Claim C8 as stated: in this store the conversation
record is a well-formed object with two headers, the first header's bubble
blob is missing, and the second header's blob parses to the truthy
non-object JSON value `[1]`. The claim promises the missing message is
skipped while the remaining messages are still returned, but the program
raises `AttributeError` at the content fallback (parser.py line 68) on the
second blob, so the whole reconstruction aborts and returns nothing. -/
theorem c8_reconstruct_absorbs_failures_counterexample :
    reconstruct_conversation
      ⟨fun _ => some (some (Json.obj
          [((("fullConversationHeadersOnly").data),
            Json.arr
              [Json.obj [((("bubbleId").data), Json.str (("b1").data))],
               Json.obj [((("bubbleId").data), Json.str (("b2").data))]])])),
        fun _ bid =>
          match bid with
          | Json.str s =>
            if s = (("b2").data) then some (some (Json.arr [Json.num 1])) else none
          | _ => none⟩
      ("c") = Except.error () := by
  rfl

theorem msgsFromHeadersE_cons_none (st : Store) (cid : String)
    (h : Json × Option Json × Option Json)
    (rest : List (Json × Option Json × Option Json))
    (hm : load_bubble st cid h.1 = none) :
    msgsFromHeadersE st cid (h :: rest) = msgsFromHeadersE st cid rest := by
  rw [msgsFromHeadersE, hm]

theorem msgsFromHeadersE_cons_some (st : Store) (cid : String)
    (h : Json × Option Json × Option Json)
    (rest : List (Json × Option Json × Option Json)) (bubble : Json)
    (hm : load_bubble st cid h.1 = some bubble) :
    msgsFromHeadersE st cid (h :: rest) =
      if truthy bubble then
        match bubbleTextE bubble with
        | Except.error e => Except.error e
        | Except.ok text =>
          match msgsFromHeadersE st cid rest with
          | Except.error e => Except.error e
          | Except.ok msgs =>
            Except.ok
              ({ composer_id := cid, bubble_id := h.1, server_bubble_id := h.2.2,
                 role := bubble_role h.2.1, text := text } :: msgs)
      else msgsFromHeadersE st cid rest := by
  rw [msgsFromHeadersE, hm]

/-- Claim C8 (amended): an absent or unparseable conversation record yields
the empty message list; a header whose referenced bubble blob is missing or
unparseable contributes nothing — the outcome over the remaining headers,
messages or error, is unchanged — and whenever every other referenced blob
is itself absent, unparseable, falsy, or a JSON object, the remaining
messages are indeed still returned. (A present truthy non-object blob
instead aborts the whole reconstruction; see the counterexample.) -/
theorem c8_reconstruct_absorbs_failures_amended :
    (∀ (st : Store) (cid : String),
       st.composers cid = none → reconstruct_conversation st cid = Except.ok [])
    ∧ (∀ (st : Store) (cid : String),
       st.composers cid = some none → reconstruct_conversation st cid = Except.ok [])
    ∧ (∀ (st : Store) (cid : String) (h : Json × Option Json × Option Json)
         (l1 l2 : List (Json × Option Json × Option Json)),
       load_bubble st cid h.1 = none →
       msgsFromHeadersE st cid (l1 ++ h :: l2) = msgsFromHeadersE st cid (l1 ++ l2))
    ∧ (∀ (st : Store) (cid : String)
         (headers : List (Json × Option Json × Option Json)),
       (∀ h ∈ headers,
          load_bubble st cid h.1 = none
          ∨ ∃ b, load_bubble st cid h.1 = some b
              ∧ (truthy b = false ∨ ∃ entries, b = Json.obj entries)) →
       ∃ msgs, msgsFromHeadersE st cid headers = Except.ok msgs) := by
  refine ⟨?_, ?_, ?_, ?_⟩
  · intro st cid hnone
    unfold reconstruct_conversation load_composer
    rw [hnone]
  · intro st cid hbad
    unfold reconstruct_conversation load_composer
    rw [hbad]
  · intro st cid h l1 l2 hmiss
    induction l1 with
    | nil =>
      rw [List.nil_append, List.nil_append,
        msgsFromHeadersE_cons_none st cid h l2 hmiss]
    | cons g l1 ih =>
      rw [List.cons_append, List.cons_append]
      cases hg : load_bubble st cid g.1 with
      | none =>
        rw [msgsFromHeadersE_cons_none st cid g _ hg,
          msgsFromHeadersE_cons_none st cid g _ hg]
        exact ih
      | some bubble =>
        rw [msgsFromHeadersE_cons_some st cid g _ bubble hg,
          msgsFromHeadersE_cons_some st cid g _ bubble hg]
        by_cases ht : truthy bubble = true
        · rw [if_pos ht, if_pos ht, ih]
        · rw [if_neg ht, if_neg ht]
          exact ih
  · intro st cid headers
    induction headers with
    | nil => intro _; exact ⟨[], rfl⟩
    | cons h rest ih =>
      intro hall
      have hrest := ih (fun g hg => hall g (List.mem_cons_of_mem _ hg))
      obtain ⟨msgs, hmsgs⟩ := hrest
      rcases hall h (List.mem_cons_self _ _) with hmiss | ⟨b, hb, hshape⟩
      · rw [msgsFromHeadersE_cons_none st cid h rest hmiss]
        exact ⟨msgs, hmsgs⟩
      · rw [msgsFromHeadersE_cons_some st cid h rest b hb]
        rcases hshape with hfalsy | ⟨entries, rfl⟩
        · rw [if_neg (by rw [hfalsy]; decide)]
          exact ⟨msgs, hmsgs⟩
        · by_cases ht : truthy (Json.obj entries) = true
          · rw [if_pos ht, hmsgs]
            exact ⟨_, rfl⟩
          · rw [if_neg ht]
            exact ⟨msgs, hmsgs⟩

/-- Concrete runs of Claim C8's amended theorem: empty and unparseable
conversation records give an empty result, a header with a missing bubble
changes nothing, and a store whose blobs are objects returns its
messages. -/
theorem c8_reconstruct_absorbs_failures_amended_witness :
    reconstruct_conversation ⟨fun _ => none, fun _ _ => none⟩ ("c1") = Except.ok []
    ∧ reconstruct_conversation ⟨fun _ => some none, fun _ _ => none⟩ ("c1")
        = Except.ok []
    ∧ msgsFromHeadersE ⟨fun _ => none, fun _ _ => none⟩ ("c1")
        ([] ++ (Json.str (("b0").data), none, none) :: [])
      = msgsFromHeadersE ⟨fun _ => none, fun _ _ => none⟩ ("c1") ([] ++ [])
    ∧ ∃ msgs,
        msgsFromHeadersE
          ⟨fun _ => none,
           fun _ _ => some (some (Json.obj [((("text").data), Json.str (("hi").data))]))⟩
          ("c1") [(Json.str (("b1").data), none, none)] = Except.ok msgs := by
  refine ⟨?_, ?_, ?_, ?_⟩
  · exact c8_reconstruct_absorbs_failures_amended.1 ⟨fun _ => none, fun _ _ => none⟩
      ("c1") rfl
  · exact c8_reconstruct_absorbs_failures_amended.2.1
      ⟨fun _ => some none, fun _ _ => none⟩ ("c1") rfl
  · exact c8_reconstruct_absorbs_failures_amended.2.2.1
      ⟨fun _ => none, fun _ _ => none⟩ ("c1") (Json.str (("b0").data), none, none)
      [] [] rfl
  · apply c8_reconstruct_absorbs_failures_amended.2.2.2
      ⟨fun _ => none,
       fun _ _ => some (some (Json.obj [((("text").data), Json.str (("hi").data))]))⟩
      ("c1") [(Json.str (("b1").data), none, none)]
    intro h hmem
    rw [List.mem_singleton] at hmem
    subst hmem
    right
    exact ⟨Json.obj [((("text").data), Json.str (("hi").data))], rfl,
      Or.inr ⟨[((("text").data), Json.str (("hi").data))], rfl⟩⟩

/-- `embeddings.l2_normalize` under exact arithmetic: guard on a non-positive
sum of squares, then divide by the square root (the second guard mirrors the
code's `den == 0.0` check). -/
noncomputable def l2_normalize (v : List ℝ) : List ℝ :=
  if (v.map fun x => x * x).sum ≤ 0 then v
  else
    if Real.sqrt ((v.map fun x => x * x).sum) = 0 then v
    else v.map fun x => x / Real.sqrt ((v.map fun x => x * x).sum)

theorem sum_map_div_sq (v : List ℝ) (c : ℝ) :
    (v.map fun x => (x / c) * (x / c)).sum = (v.map fun x => x * x).sum / (c * c) := by
  induction v with
  | nil => simp
  | cons x xs ih =>
    simp only [List.map_cons, List.sum_cons, ih]
    rw [div_mul_div_comm, div_add_div_same]

/-- Claim C10: `l2_normalize` is total and never divides by zero: whenever
the sum of squared components is non-positive (in particular for the
all-zero vector and the empty vector) the input is returned unchanged, and
otherwise every component is divided by the L2 norm and the result has unit
sum of squares under exact arithmetic. -/
theorem c10_l2_normalize_safe :
    (∀ v : List ℝ, (v.map fun x => x * x).sum ≤ 0 → l2_normalize v = v)
    ∧ (∀ n : Nat, l2_normalize (List.replicate n (0 : ℝ)) = List.replicate n 0)
    ∧ l2_normalize ([] : List ℝ) = []
    ∧ ∀ v : List ℝ, 0 < (v.map fun x => x * x).sum →
        l2_normalize v
          = v.map (fun x => x / Real.sqrt ((v.map fun x => x * x).sum))
        ∧ ((l2_normalize v).map fun x => x * x).sum = 1 := by
  have base : ∀ v : List ℝ, (v.map fun x => x * x).sum ≤ 0 → l2_normalize v = v := by
    intro v h
    simp only [l2_normalize]
    rw [if_pos h]
  refine ⟨base, ?_, ?_, ?_⟩
  · intro n
    apply base
    simp
  · apply base
    simp
  · intro v h
    have hne : ¬ ((v.map fun x => x * x).sum ≤ 0) := not_le.mpr h
    have hden : ¬ (Real.sqrt ((v.map fun x => x * x).sum) = 0) :=
      ne_of_gt (Real.sqrt_pos.mpr h)
    have heq : l2_normalize v
        = v.map (fun x => x / Real.sqrt ((v.map fun x => x * x).sum)) := by
      simp only [l2_normalize]
      rw [if_neg hne, if_neg hden]
    refine ⟨heq, ?_⟩
    rw [heq, List.map_map]
    have hcomp : ((fun x => x * x) ∘ fun x =>
        x / Real.sqrt ((v.map fun x => x * x).sum))
        = fun x => (x / Real.sqrt ((v.map fun x => x * x).sum))
            * (x / Real.sqrt ((v.map fun x => x * x).sum)) := rfl
    rw [hcomp, sum_map_div_sq, Real.mul_self_sqrt (le_of_lt h)]
    exact div_self (ne_of_gt h)

/-- Concrete runs of Claim C10's theorem: the zero vector is returned
unchanged and normalizing (3, 4) gives unit sum of squares. -/
theorem c10_l2_normalize_safe_witness :
    l2_normalize [(0 : ℝ)] = [0]
    ∧ ((l2_normalize [(3 : ℝ), 4]).map fun x => x * x).sum = 1 := by
  constructor
  · exact c10_l2_normalize_safe.1 [(0 : ℝ)] (by norm_num)
  · exact (c10_l2_normalize_safe.2.2.2 [(3 : ℝ), 4] (by norm_num)).2

/-- `sum(x*y for x, y in zip(v, c))`. -/
def dotQ (a b : List ℚ) : ℚ := ((a.zip b).map fun p => p.1 * p.2).sum

/-- Assignment pass of `cluster._kmeans2`: nearest centroid under cosine
distance (`1 - dot`) on normalized vectors, ties to centroid 0. -/
def assignStep (vecs : List (List ℚ)) (c0 c1 : List ℚ) : List Nat :=
  vecs.map fun v => if (1 - dotQ v c0) ≤ (1 - dotQ v c1) then 0 else 1

/-- `[x + y for x, y in zip(a, b)]`. -/
def addVec (a b : List ℚ) : List ℚ := (a.zip b).map fun p => p.1 + p.2

/-- Component-wise sum of the vectors assigned to cluster `which`
(`s0`/`s1` accumulation in `cluster._kmeans2`). -/
def sumAssigned (vecs : List (List ℚ)) (assign : List Nat) (which : Nat) (dim : Nat) :
    List ℚ :=
  (vecs.zip assign).foldl
    (fun s p => if p.2 = which then addVec s p.1 else s)
    (List.replicate dim 0)

/-- Centroid update in `cluster._kmeans2`: only touched when the cluster is
non-empty, dividing by `max(1, n)`. -/
def updateCentroid (c s : List ℚ) (n : Nat) : List ℚ :=
  if n ≠ 0 then s.map fun x => x / (max 1 n : ℕ) else c

/-- Fixed-iteration loop of `cluster._kmeans2`; returns the assignment
computed in the final iteration together with the centroids. -/
def kmLoop (vecs : List (List ℚ)) (dim : Nat) :
    Nat → List ℚ → List ℚ → List Nat → List Nat × List ℚ × List ℚ
  | 0, c0, c1, assign => (assign, c0, c1)
  | n + 1, c0, c1, _ =>
    let a := assignStep vecs c0 c1
    let s0 := sumAssigned vecs a 0 dim
    let s1 := sumAssigned vecs a 1 dim
    let n0 := (vecs.zip a).countP fun p => decide (p.2 = 0)
    let n1 := (vecs.zip a).countP fun p => decide (p.2 = 1)
    kmLoop vecs dim n (updateCentroid c0 s0 n0) (updateCentroid c1 s1 n1) a

/-- `cluster._kmeans2`: two-way k-means seeded with the first and last
vector, run for `max(1, iters)` iterations with no convergence check. -/
def _kmeans2 (vecs : List (List ℚ)) (iters : Nat) : List Nat × List ℚ × List ℚ :=
  match vecs with
  | [] => ([], [], [])
  | v0 :: rest =>
    kmLoop (v0 :: rest) v0.length (max 1 iters) v0
      ((v0 :: rest).getLast (List.cons_ne_nil v0 rest))
      (List.replicate (v0 :: rest).length 0)

/-- Binary topic tree built by `cluster._bisect_recursive`: leaves carry the
member index list, internal nodes carry only children plus the size. -/
inductive ClusterNode where
  | leaf (size : Nat) (ids : List Nat) : ClusterNode
  | node (size : Nat) (left right : ClusterNode) : ClusterNode
deriving DecidableEq, Repr

/-- Partition of `idxs` by a 2-means assignment (`left`/`right` accumulation
in `cluster._bisect_recursive`). -/
def splitByAssign (idxs assign : List Nat) : List Nat × List Nat :=
  (((assign.zip idxs).filter fun p => decide (p.1 = 0)).map Prod.snd,
   ((assign.zip idxs).filter fun p => !decide (p.1 = 0)).map Prod.snd)

/-- The left/right split `cluster._bisect_recursive` computes for a subset:
run 2-means (default 15 iterations) on the subset's vectors and partition. -/
def bisectParts (vecs : List (List ℚ)) (idxs : List Nat) : List Nat × List Nat :=
  splitByAssign idxs (_kmeans2 (idxs.map fun i => vecs.getD i []) 15).1

/-- `cluster._bisect_recursive`: leaf when the depth budget is exhausted or
the subset is small, leaf when 2-means leaves one side empty, otherwise an
internal node over the two sub-partitions. -/
def _bisect_recursive (vecs : List (List ℚ)) (minSize : Nat) :
    Nat → List Nat → ClusterNode
  | 0, idxs => ClusterNode.leaf idxs.length idxs
  | depth + 1, idxs =>
    if idxs.length ≤ max 2 minSize then ClusterNode.leaf idxs.length idxs
    else
      if (bisectParts vecs idxs).1.isEmpty || (bisectParts vecs idxs).2.isEmpty then
        ClusterNode.leaf idxs.length idxs
      else
        ClusterNode.node idxs.length
          (_bisect_recursive vecs minSize depth (bisectParts vecs idxs).1)
          (_bisect_recursive vecs minSize depth (bisectParts vecs idxs).2)

/-- Claim C7: in every tree built by `_bisect_recursive`, a subset of size at
most the minimum-size threshold becomes a leaf regardless of the remaining
depth budget; an exhausted depth budget yields a leaf; a 2-means split with
an empty side yields a leaf (never an error); and a node is produced exactly
under the remaining case, recursing on the two non-empty sides. -/
theorem c7_bisect_leaf_conditions :
    (∀ (vecs : List (List ℚ)) (minSize depth : Nat) (idxs : List Nat),
       idxs.length ≤ minSize →
       _bisect_recursive vecs minSize depth idxs = ClusterNode.leaf idxs.length idxs)
    ∧ (∀ (vecs : List (List ℚ)) (minSize : Nat) (idxs : List Nat),
       _bisect_recursive vecs minSize 0 idxs = ClusterNode.leaf idxs.length idxs)
    ∧ (∀ (vecs : List (List ℚ)) (minSize depth : Nat) (idxs : List Nat),
       ((bisectParts vecs idxs).1.isEmpty || (bisectParts vecs idxs).2.isEmpty) = true →
       _bisect_recursive vecs minSize depth idxs = ClusterNode.leaf idxs.length idxs)
    ∧ (∀ (vecs : List (List ℚ)) (minSize depth : Nat) (idxs : List Nat),
       ¬ (idxs.length ≤ max 2 minSize) →
       ((bisectParts vecs idxs).1.isEmpty || (bisectParts vecs idxs).2.isEmpty) = false →
       _bisect_recursive vecs minSize (depth + 1) idxs
         = ClusterNode.node idxs.length
             (_bisect_recursive vecs minSize depth (bisectParts vecs idxs).1)
             (_bisect_recursive vecs minSize depth (bisectParts vecs idxs).2)) := by
  refine ⟨?_, ?_, ?_, ?_⟩
  · intro vecs minSize depth idxs h
    cases depth with
    | zero => rfl
    | succ d =>
      rw [_bisect_recursive]
      rw [if_pos (h.trans (Nat.le_max_right 2 minSize))]
  · intro vecs minSize idxs
    rfl
  · intro vecs minSize depth idxs hparts
    cases depth with
    | zero => rfl
    | succ d =>
      rw [_bisect_recursive]
      by_cases hsmall : idxs.length ≤ max 2 minSize
      · rw [if_pos hsmall]
      · rw [if_neg hsmall, if_pos hparts]
  · intro vecs minSize depth idxs hsmall hparts
    rw [_bisect_recursive, if_neg hsmall, if_neg (by rw [hparts]; decide)]

set_option maxRecDepth 4000

/-- Concrete runs of Claim C7's theorem: a small subset is a leaf even with
depth budget left; four identical vectors produce an all-left split and
hence a leaf; two distinct groups produce a genuine node. -/
theorem c7_bisect_leaf_conditions_witness :
    _bisect_recursive [] 5 3 [0, 1] = ClusterNode.leaf 2 [0, 1]
    ∧ _bisect_recursive [[(1 : ℚ)], [1], [1], [1]] 0 1 [0, 1, 2, 3]
        = ClusterNode.leaf 4 [0, 1, 2, 3]
    ∧ _bisect_recursive [[(1 : ℚ)], [1], [-1]] 0 1 [0, 1, 2]
        = ClusterNode.node 3
            (_bisect_recursive [[(1 : ℚ)], [1], [-1]] 0 0 [0, 1])
            (_bisect_recursive [[(1 : ℚ)], [1], [-1]] 0 0 [2]) := by
  refine ⟨?_, ?_, ?_⟩
  · exact c7_bisect_leaf_conditions.1 [] 5 3 [0, 1] (by decide)
  · exact c7_bisect_leaf_conditions.2.2.1 [[(1 : ℚ)], [1], [1], [1]] 0 1 [0, 1, 2, 3]
      (by with_unfolding_all decide)
  · have h := c7_bisect_leaf_conditions.2.2.2 [[(1 : ℚ)], [1], [-1]] 0 0 [0, 1, 2]
      (by decide) (by with_unfolding_all decide)
    exact h.trans (by with_unfolding_all decide)

/-- Embedding-cache key from `llm_utils._embedding_cache_key`: the content
hash field holds the hashed text itself (sha256 is injective for the
purposes of the cache, so keys are modelled by their components). -/
structure EmbedKey where
  model : String
  scope : String
  ident : String
  textHash : String
deriving DecidableEq, Repr

def _embedding_cache_key (model scope ident text : String) : EmbedKey :=
  ⟨model, scope, ident, text⟩

/-- The persistent embedding cache (`llm_cache`): newest entry first;
lookups see the most recent write for a key. -/
def EmbedCache := List (EmbedKey × List ℚ)

def cacheGet (c : EmbedCache) (k : EmbedKey) : Option (List ℚ) :=
  List.lookup k c

def cacheSet (c : EmbedCache) (k : EmbedKey) (v : List ℚ) : EmbedCache :=
  (k, v) :: c

/-- First pass of `llm_utils.embed_texts`: per index, a cache hit fills the
result slot; a miss leaves a placeholder and records `(index, text)`. -/
def firstPass (cache : EmbedCache) (model scope pfx : String) :
    List String → Nat → List (List ℚ) × List (Nat × String)
  | [], _ => ([], [])
  | t :: ts, i =>
    let rest := firstPass cache model scope pfx ts (i + 1)
    match cacheGet cache (_embedding_cache_key model scope (pfx ++ toString i) t) with
    | some vec => (vec :: rest.1, rest.2)
    | none => ([] :: rest.1, (i, t) :: rest.2)

/-- `missing[start : start + B]` chunking of the miss list (for the API-call
count; Python never terminates when `B ≤ 0`, which this model maps to
chunks of one). -/
def chunksOf (B : Nat) : List α → List (List α)
  | [] => []
  | a :: l => (a :: l.take (B - 1)) :: chunksOf B (l.drop (B - 1))
termination_by l => l.length
decreasing_by simp; omega

/-- Second pass of `llm_utils.embed_texts`, flattened over the chunks: each
missing `(index, text)` gets its service vector spliced into the result
slot and written to the cache (per-chunk API responses are
order-preserving, so the per-text service function `svc` models them). -/
def applyMisses (svc : String → List ℚ) (model scope pfx : String) :
    List (Nat × String) → List (List ℚ) → EmbedCache → List (List ℚ) × EmbedCache
  | [], rs, c => (rs, c)
  | (i, t) :: ms, rs, c =>
    applyMisses svc model scope pfx ms (rs.set i (svc t))
      (cacheSet c (_embedding_cache_key model scope (pfx ++ toString i) t) (svc t))

structure EmbedResult where
  results : List (List ℚ)
  cache : EmbedCache
  sent : List String
  calls : Nat

/-- `llm_utils.embed_texts`: cache-first lookup, then batched embedding of
the misses only; `sent` is the list of texts sent to the external service
and `calls` the number of API invocations (one per chunk). -/
def embed_texts (svc : String → List ℚ) (cache : EmbedCache)
    (model scope pfx : String) (B : Nat) (texts : List String) : EmbedResult :=
  let fp := firstPass cache model scope pfx texts 0
  let am := applyMisses svc model scope pfx fp.2 fp.1 cache
  ⟨am.1, am.2, fp.2.map Prod.snd, (chunksOf B fp.2).length⟩

theorem countP_add_countP_not (p : α → Bool) :
    ∀ l : List α, l.countP p + l.countP (fun a => !(p a)) = l.length := by
  intro l
  induction l with
  | nil => rfl
  | cons a l ih =>
    by_cases h : p a = true <;>
      simp [List.countP_cons, h, ← ih] <;> omega

/-- Characterization of the cache-first pass: result slots mirror cache
hits, and the miss list is exactly the enumerated misses in order. -/
theorem firstPass_spec (cache : EmbedCache) (m s p : String) :
    ∀ (ts : List String) (i0 : Nat),
      (firstPass cache m s p ts i0).1.length = ts.length
      ∧ (firstPass cache m s p ts i0).2
          = (List.enumFrom i0 ts).filter
              (fun q => (cacheGet cache
                (_embedding_cache_key m s (p ++ toString q.1) q.2)).isNone)
      ∧ ∀ j (hj : j < ts.length),
          (firstPass cache m s p ts i0).1[j]?
            = some (match cacheGet cache
                      (_embedding_cache_key m s (p ++ toString (i0 + j)) ts[j]) with
                    | some v => v
                    | none => []) := by
  intro ts
  induction ts with
  | nil =>
    intro i0
    exact ⟨rfl, rfl, fun j hj => absurd hj (by simp)⟩
  | cons t ts ih =>
    intro i0
    have hrec := ih (i0 + 1)
    cases hc : cacheGet cache (_embedding_cache_key m s (p ++ toString i0) t) with
    | some v =>
      have hfp : firstPass cache m s p (t :: ts) i0
          = (v :: (firstPass cache m s p ts (i0 + 1)).1,
             (firstPass cache m s p ts (i0 + 1)).2) := by
        rw [firstPass, hc]
      refine ⟨?_, ?_, ?_⟩
      · rw [hfp]
        simp [hrec.1]
      · rw [hfp]
        rw [List.enumFrom_cons, List.filter_cons]
        simp only [hc, Option.isNone_some, Bool.false_eq_true, if_false]
        exact hrec.2.1
      · intro j hj
        rw [hfp]
        cases j with
        | zero =>
          simp only [List.getElem?_cons_zero, List.getElem_cons_zero, Nat.add_zero, hc]
        | succ jj =>
          have hjj : jj < ts.length := by simpa using hj
          simp only [List.getElem?_cons_succ, List.getElem_cons_succ]
          rw [show i0 + (jj + 1) = i0 + 1 + jj by omega]
          exact hrec.2.2 jj hjj
    | none =>
      have hfp : firstPass cache m s p (t :: ts) i0
          = ([] :: (firstPass cache m s p ts (i0 + 1)).1,
             (i0, t) :: (firstPass cache m s p ts (i0 + 1)).2) := by
        rw [firstPass, hc]
      refine ⟨?_, ?_, ?_⟩
      · rw [hfp]
        simp [hrec.1]
      · rw [hfp]
        rw [List.enumFrom_cons, List.filter_cons]
        simp only [hc, Option.isNone_none, if_true]
        rw [hrec.2.1]
      · intro j hj
        rw [hfp]
        cases j with
        | zero =>
          simp only [List.getElem?_cons_zero, List.getElem_cons_zero, Nat.add_zero, hc]
        | succ jj =>
          have hjj : jj < ts.length := by simpa using hj
          simp only [List.getElem?_cons_succ, List.getElem_cons_succ]
          rw [show i0 + (jj + 1) = i0 + 1 + jj by omega]
          exact hrec.2.2 jj hjj

theorem applyMisses_length (svc : String → List ℚ) (m s p : String) :
    ∀ (ms : List (Nat × String)) (rs : List (List ℚ)) (c : EmbedCache),
      (applyMisses svc m s p ms rs c).1.length = rs.length := by
  intro ms
  induction ms with
  | nil => intro rs c; rfl
  | cons q ms ih =>
    intro rs c
    obtain ⟨i, t⟩ := q
    rw [applyMisses, ih, List.length_set]

theorem applyMisses_getElem_not_mem (svc : String → List ℚ) (m s p : String) :
    ∀ (ms : List (Nat × String)) (rs : List (List ℚ)) (c : EmbedCache) (i : Nat),
      (∀ q ∈ ms, q.1 ≠ i) →
      (applyMisses svc m s p ms rs c).1[i]? = rs[i]? := by
  intro ms
  induction ms with
  | nil => intro rs c i _; rfl
  | cons q ms ih =>
    intro rs c i h
    obtain ⟨j, t⟩ := q
    rw [applyMisses]
    rw [ih _ _ i (fun q hq => h q (List.mem_cons_of_mem _ hq))]
    exact List.getElem?_set_ne (h (j, t) (List.mem_cons_self _ _))

theorem applyMisses_getElem_mem (svc : String → List ℚ) (m s p : String) :
    ∀ (ms1 : List (Nat × String)) (i : Nat) (t : String) (ms2 : List (Nat × String))
      (rs : List (List ℚ)) (c : EmbedCache),
      (∀ q ∈ ms2, q.1 ≠ i) → i < rs.length →
      (applyMisses svc m s p (ms1 ++ (i, t) :: ms2) rs c).1[i]? = some (svc t) := by
  intro ms1
  induction ms1 with
  | nil =>
    intro i t ms2 rs c h2 hi
    rw [List.nil_append, applyMisses]
    rw [applyMisses_getElem_not_mem svc m s p ms2 _ _ i h2]
    exact List.getElem?_set_self (by simpa using hi)
  | cons q ms1 ih =>
    intro i t ms2 rs c h2 hi
    obtain ⟨j, u⟩ := q
    rw [List.cons_append, applyMisses]
    exact ih i t ms2 _ _ h2 (by simpa using hi)

/-- Claim C4: `embed_texts` returns one vector per input in original order —
slot `i` holds the cached vector when the key for `(model, scope,
id_prefix+i, hash(text))` is cached, and the freshly embedded vector
otherwise; the texts sent to the external service are exactly the cache
misses in order (so with B hits among N texts only N−B are sent); and
embedding the same single text twice under the same model/scope issues
exactly one external call: one on the first run, none on the rerun against
the updated cache. -/
theorem c4_embed_texts_cache (svc : String → List ℚ) (cache : EmbedCache)
    (model scope pfx : String) (B : Nat) (texts : List String) :
    (embed_texts svc cache model scope pfx B texts).results.length = texts.length
    ∧ (∀ i (hi : i < texts.length),
        (embed_texts svc cache model scope pfx B texts).results[i]?
          = some (match cacheGet cache
                    (_embedding_cache_key model scope (pfx ++ toString i) texts[i]) with
                  | some v => v
                  | none => svc texts[i]))
    ∧ (embed_texts svc cache model scope pfx B texts).sent
        = ((List.enumFrom 0 texts).filter
            (fun q => (cacheGet cache
              (_embedding_cache_key model scope (pfx ++ toString q.1) q.2)).isNone)).map
          Prod.snd
    ∧ texts.length
        = (List.enumFrom 0 texts).countP
            (fun q => (cacheGet cache
              (_embedding_cache_key model scope (pfx ++ toString q.1) q.2)).isSome)
          + (embed_texts svc cache model scope pfx B texts).sent.length
    ∧ ∀ t : String,
        cacheGet cache (_embedding_cache_key model scope (pfx ++ toString 0) t) = none →
        (embed_texts svc cache model scope pfx B [t]).calls = 1
        ∧ (embed_texts svc (embed_texts svc cache model scope pfx B [t]).cache
            model scope pfx B [t]).calls = 0 := by
  have hspec := firstPass_spec cache model scope pfx texts 0
  have hpw : ((firstPass cache model scope pfx texts 0).2).Pairwise
      (fun a b => a.1 < b.1) := by
    rw [hspec.2.1]
    refine List.Pairwise.sublist (List.filter_sublist _) ?_
    rw [← List.pairwise_map (f := Prod.fst)]
    rw [List.enumFrom_map_fst]
    exact List.pairwise_lt_range' 0 texts.length
  refine ⟨?_, ?_, ?_, ?_, ?_⟩
  · show (applyMisses svc model scope pfx _ _ cache).1.length = _
    rw [applyMisses_length, hspec.1]
  · intro i hi
    show (applyMisses svc model scope pfx
      (firstPass cache model scope pfx texts 0).2
      (firstPass cache model scope pfx texts 0).1 cache).1[i]? = _
    cases hc : cacheGet cache
        (_embedding_cache_key model scope (pfx ++ toString i) texts[i]) with
    | some v =>
      have hnot : ∀ q ∈ (firstPass cache model scope pfx texts 0).2, q.1 ≠ i := by
        intro q hq hqi
        rw [hspec.2.1, List.mem_filter] at hq
        obtain ⟨hmem, hnone⟩ := hq
        subst hqi
        have hq2 : texts[q.1]? = some q.2 := by
          have hmem' : (0 + q.1, q.2) ∈ List.enumFrom 0 texts := by
            simpa using hmem
          exact (List.mk_add_mem_enumFrom_iff_getElem?).mp hmem'
        have hq2' : q.2 = texts[q.1] := by
          have := List.getElem?_eq_getElem hi
          rw [this] at hq2
          exact (Option.some_inj.mp hq2).symm
        rw [hq2', hc] at hnone
        simp at hnone
      rw [applyMisses_getElem_not_mem svc model scope pfx _ _ _ i hnot]
      have := hspec.2.2 i hi
      simpa [hc] using this
    | none =>
      have hmem : (i, texts[i]) ∈ (firstPass cache model scope pfx texts 0).2 := by
        rw [hspec.2.1, List.mem_filter]
        constructor
        · have : (0 + i, texts[i]) ∈ List.enumFrom 0 texts := by
            rw [List.mk_add_mem_enumFrom_iff_getElem?]
            exact List.getElem?_eq_getElem hi
          simpa using this
        · simp [hc]
      obtain ⟨ms1, ms2, hdecomp⟩ := List.append_of_mem hmem
      have hms2 : ∀ q ∈ ms2, q.1 ≠ i := by
        rw [hdecomp] at hpw
        have h2 := (List.pairwise_append.mp hpw).2.1
        rw [List.pairwise_cons] at h2
        intro q hq
        exact Nat.ne_of_gt (h2.1 q hq)
      rw [hdecomp]
      rw [applyMisses_getElem_mem svc model scope pfx ms1 i texts[i] ms2 _ cache hms2
        (by rw [hspec.1]; exact hi)]
  · show (firstPass cache model scope pfx texts 0).2.map Prod.snd = _
    rw [hspec.2.1]
  · show texts.length = _ + ((firstPass cache model scope pfx texts 0).2.map Prod.snd).length
    rw [List.length_map, hspec.2.1, ← List.countP_eq_length_filter]
    have := countP_add_countP_not
      (fun q : Nat × String => (cacheGet cache
        (_embedding_cache_key model scope (pfx ++ toString q.1) q.2)).isSome)
      (List.enumFrom 0 texts)
    have hlen : (List.enumFrom 0 texts).length = texts.length := by simp
    rw [← hlen, ← this]
    congr 1
    apply List.countP_congr
    intro q _
    cases cacheGet cache (_embedding_cache_key model scope (pfx ++ toString q.1) q.2) <;> rfl
  · intro t ht
    have hfp1 : firstPass cache model scope pfx [t] 0 = ([[]], [(0, t)]) := by
      rw [firstPass, ht, firstPass]
    constructor
    · show (chunksOf B (firstPass cache model scope pfx [t] 0).2).length = 1
      rw [hfp1]
      rw [chunksOf]
      simp [chunksOf]
    · have hcache : (embed_texts svc cache model scope pfx B [t]).cache
          = cacheSet cache (_embedding_cache_key model scope (pfx ++ toString 0) t)
              (svc t) := by
        show (applyMisses svc model scope pfx
          (firstPass cache model scope pfx [t] 0).2
          (firstPass cache model scope pfx [t] 0).1 cache).2 = _
        rw [hfp1, applyMisses, applyMisses]
      have hhit : cacheGet (embed_texts svc cache model scope pfx B [t]).cache
          (_embedding_cache_key model scope (pfx ++ toString 0) t) = some (svc t) := by
        rw [hcache]
        simp [cacheGet, cacheSet, List.lookup]
      show (chunksOf B (firstPass
        (embed_texts svc cache model scope pfx B [t]).cache model scope pfx [t] 0).2).length = 0
      rw [firstPass, hhit, firstPass]
      simp [chunksOf]

/-- Concrete run of Claim C4's theorem: two texts against an empty cache
give two result slots with the service vector in slot 0, and embedding the
same text twice issues one external call then zero. -/
theorem c4_embed_texts_cache_witness :
    (embed_texts (fun _ => [(1 : ℚ)]) ([] : EmbedCache)
      ("m") ("pairs") ("it:") 16 [("alpha"), ("beta")]).results.length = 2
    ∧ (embed_texts (fun _ => [(1 : ℚ)]) ([] : EmbedCache)
        ("m") ("pairs") ("it:") 16 [("alpha"), ("beta")]).results[0]? = some [(1 : ℚ)]
    ∧ (embed_texts (fun _ => [(1 : ℚ)]) ([] : EmbedCache)
        ("m") ("pairs") ("it:") 16 [("alpha")]).calls = 1
    ∧ (embed_texts (fun _ => [(1 : ℚ)])
        (embed_texts (fun _ => [(1 : ℚ)]) ([] : EmbedCache)
          ("m") ("pairs") ("it:") 16 [("alpha")]).cache
        ("m") ("pairs") ("it:") 16 [("alpha")]).calls = 0 := by
  have h := c4_embed_texts_cache (fun _ => [(1 : ℚ)]) ([] : EmbedCache)
    ("m") ("pairs") ("it:") 16 [("alpha"), ("beta")]
  have h1 := c4_embed_texts_cache (fun _ => [(1 : ℚ)]) ([] : EmbedCache)
    ("m") ("pairs") ("it:") 16 [("alpha")]
  have hone := h1.2.2.2.2 ("alpha") rfl
  exact ⟨h.1, (h.2.1 0 (by decide)).trans rfl, hone.1, hone.2⟩

/-- One sparse search result as consumed by `_tool_hybrid_search`
(`search_index` / `items_search` row). -/
structure SparseHit where
  composer_id : String
  turn_index : Int
  user_head : String
  assistant_head : String
  score : Int
deriving DecidableEq, Repr

/-- One vector search result as consumed by `_tool_hybrid_search`
(`vec_search` row). -/
structure VecHit where
  id : Option String
  composer_id : String
  turn_index : Int
  user_head : String
  assistant_head : String
  distance : ℚ
deriving DecidableEq, Repr

/-- One merged item of `_tool_hybrid_search`: both score fields are
optional and present exactly when the corresponding result set contained
the item. -/
structure HybridItem where
  id : String
  composer_id : String
  turn_index : Int
  user_head : String
  assistant_head : String
  sparse_score : Option Int
  vec_distance : Option ℚ
deriving DecidableEq, Repr

/-- Python `dict` keyed by the item identity string: insertion-ordered,
update-in-place on existing keys, append for new keys. -/
def PyDict := List (String × HybridItem)

def dictSet (k : String) (v : HybridItem) : PyDict → PyDict
  | [] => [(k, v)]
  | (k', v') :: rest => if k' = k then (k, v) :: rest else (k', v') :: dictSet k v rest

def dictGet (d : PyDict) (k : String) : Option HybridItem := List.lookup k d

/-- `f"{r.get('composer_id')}:{r.get('turn_index')}"`. -/
def idOfSparse (r : SparseHit) : String := r.composer_id ++ (":") ++ toString r.turn_index

/-- `r.get("id") or f"{...}"`. -/
def idOfVec (r : VecHit) : String :=
  match r.id with
  | some s =>
    if s.isEmpty then r.composer_id ++ (":") ++ toString r.turn_index else s
  | none => r.composer_id ++ (":") ++ toString r.turn_index

/-- Entry written by the sparse pass of `_tool_hybrid_search`. -/
def sparseEntry (r : SparseHit) : HybridItem :=
  { id := idOfSparse r, composer_id := r.composer_id, turn_index := r.turn_index,
    user_head := r.user_head, assistant_head := r.assistant_head,
    sparse_score := some r.score, vec_distance := none }

/-- Fresh entry created by the vector pass for an item absent from the
sparse results (before the distance is attached). -/
def vecBase (idv : String) (r : VecHit) : HybridItem :=
  { id := idv, composer_id := r.composer_id, turn_index := r.turn_index,
    user_head := r.user_head, assistant_head := r.assistant_head,
    sparse_score := none, vec_distance := none }

/-- Entry the vector pass stores for `r`: the existing entry for the id (or
a fresh base) with the vector distance attached. -/
def vecEntry (d : PyDict) (r : VecHit) : HybridItem :=
  { (dictGet d (idOfVec r)).getD (vecBase (idOfVec r) r) with
    vec_distance := some r.distance }

/-- The dictionary state after both passes of the merge loop in
`_tool_hybrid_search`. -/
def mergeDict (sp : List SparseHit) (vec : List VecHit) : PyDict :=
  let d1 : PyDict := sp.foldl (fun d r => dictSet (idOfSparse r) (sparseEntry r) d) []
  vec.foldl (fun d r => dictSet (idOfVec r) (vecEntry d r) d) d1

/-- Merge step of `toolchat._tool_hybrid_search`: union-join of the sparse
and vector result sets by item identity (`list(merged.values())`). -/
def _tool_hybrid_search_merge (sp : List SparseHit) (vec : List VecHit) :
    List HybridItem :=
  (mergeDict sp vec).map Prod.snd

theorem dictGet_dictSet_self (k : String) (v : HybridItem) :
    ∀ d : PyDict, dictGet (dictSet k v d) k = some v := by
  intro d
  induction d with
  | nil => simp [dictSet, dictGet, List.lookup]
  | cons x rest ih =>
    obtain ⟨k', v'⟩ := x
    rw [dictSet]
    by_cases h : k' = k
    · rw [if_pos h]
      simp [dictGet, List.lookup]
    · rw [if_neg h]
      show dictGet ((k', v') :: dictSet k v rest) k = some v
      have hb : (k == k') = false := by
        simp only [beq_eq_false_iff_ne, ne_eq]
        exact fun hh => h hh.symm
      simp only [dictGet, List.lookup, hb]
      exact ih

theorem dictGet_dictSet_ne (k k' : String) (v : HybridItem) (hne : k' ≠ k) :
    ∀ d : PyDict, dictGet (dictSet k v d) k' = dictGet d k' := by
  intro d
  induction d with
  | nil =>
    have hb : (k' == k) = false := by simpa using hne
    simp [dictSet, dictGet, List.lookup, hb]
  | cons x rest ih =>
    obtain ⟨k0, v0⟩ := x
    rw [dictSet]
    by_cases h : k0 = k
    · rw [if_pos h]
      subst h
      have hb : (k' == k0) = false := by simpa using hne
      show dictGet ((k0, v) :: rest) k' = dictGet ((k0, v0) :: rest) k'
      simp only [dictGet, List.lookup, hb]
    · rw [if_neg h]
      show dictGet ((k0, v0) :: dictSet k v rest) k' = dictGet ((k0, v0) :: rest) k'
      by_cases h0 : k' = k0
      · simp [dictGet, List.lookup, h0]
      · have hb : (k' == k0) = false := by simpa using h0
        simp only [dictGet, List.lookup, hb]
        exact ih

theorem keys_dictSet_mem (k : String) (v : HybridItem) :
    ∀ d : PyDict, k ∈ d.map Prod.fst →
      (dictSet k v d).map Prod.fst = d.map Prod.fst := by
  intro d
  induction d with
  | nil => intro h; simp at h
  | cons x rest ih =>
    intro h
    obtain ⟨k0, v0⟩ := x
    rw [dictSet]
    by_cases h0 : k0 = k
    · rw [if_pos h0]
      simp [h0]
    · rw [if_neg h0]
      have hmem : k ∈ rest.map Prod.fst := by
        simp only [List.map_cons, List.mem_cons] at h
        rcases h with h | h
        · exact absurd h.symm h0
        · exact h
      simp [ih hmem]

theorem keys_dictSet_not_mem (k : String) (v : HybridItem) :
    ∀ d : PyDict, k ∉ d.map Prod.fst →
      (dictSet k v d).map Prod.fst = d.map Prod.fst ++ [k] := by
  intro d
  induction d with
  | nil => intro _; simp [dictSet]
  | cons x rest ih =>
    intro h
    obtain ⟨k0, v0⟩ := x
    simp only [List.map_cons, List.mem_cons] at h
    push_neg at h
    rw [dictSet, if_neg (fun hh => h.1 hh.symm)]
    simp [ih h.2]

/-- Lookups after a keyed-insert fold: keys not inserted are untouched. -/
theorem dictGet_foldl_not_mem (kf : α → String) (vf : PyDict → α → HybridItem) :
    ∀ (l : List α) (d : PyDict) (k : String), k ∉ l.map kf →
      dictGet (l.foldl (fun d x => dictSet (kf x) (vf d x) d) d) k = dictGet d k := by
  intro l
  induction l with
  | nil => intro d k _; rfl
  | cons x rest ih =>
    intro d k hk
    simp only [List.map_cons, List.mem_cons] at hk
    push_neg at hk
    rw [List.foldl_cons]
    rw [ih _ k hk.2]
    exact dictGet_dictSet_ne (kf x) k (vf d x) hk.1 d

/-- Lookups after a keyed-insert fold with distinct keys: each inserted key
maps to the value computed when it was processed; for value functions that
depend on the dictionary only through the entry at their own key, that is
the value computed over the starting dictionary. -/
theorem dictGet_foldl_mem (kf : α → String) (vf : PyDict → α → HybridItem)
    (hval : ∀ (d d' : PyDict) (r : α),
      dictGet d (kf r) = dictGet d' (kf r) → vf d r = vf d' r) :
    ∀ (l : List α) (d : PyDict) (r : α), r ∈ l → (l.map kf).Nodup →
      dictGet (l.foldl (fun d x => dictSet (kf x) (vf d x) d) d) (kf r)
        = some (vf d r) := by
  intro l
  induction l with
  | nil => intro d r hr; exact absurd hr (List.not_mem_nil r)
  | cons x rest ih =>
    intro d r hr hnd
    simp only [List.map_cons, List.nodup_cons] at hnd
    rw [List.foldl_cons]
    rcases List.mem_cons.mp hr with rfl | hr
    · rw [dictGet_foldl_not_mem kf vf rest _ (kf r) hnd.1]
      exact dictGet_dictSet_self (kf r) (vf d r) d
    · have hne : kf r ≠ kf x := by
        intro hh
        exact hnd.1 (hh ▸ List.mem_map_of_mem kf hr)
      have hih := ih (dictSet (kf x) (vf d x) d) r hr hnd.2
      rw [hih]
      congr 1
      exact hval _ _ r (dictGet_dictSet_ne (kf x) (kf r) (vf d x) hne d)

/-- Keys after a keyed-insert fold with distinct inserted keys: existing
keys in place, then the genuinely new keys in insertion order. -/
theorem keys_foldl_dictSet (kf : α → String) (vf : PyDict → α → HybridItem) :
    ∀ (l : List α) (d : PyDict), (l.map kf).Nodup →
      (l.foldl (fun d x => dictSet (kf x) (vf d x) d) d).map Prod.fst
        = d.map Prod.fst
          ++ (l.map kf).filter (fun k => decide (k ∉ d.map Prod.fst)) := by
  intro l
  induction l with
  | nil => intro d _; simp
  | cons x rest ih =>
    intro d hnd
    simp only [List.map_cons, List.nodup_cons] at hnd
    rw [List.foldl_cons]
    by_cases hk : kf x ∈ d.map Prod.fst
    · rw [ih _ hnd.2, keys_dictSet_mem (kf x) (vf d x) d hk]
      rw [List.map_cons, List.filter_cons]
      rw [if_neg (by simp [hk])]
    · rw [ih _ hnd.2, keys_dictSet_not_mem (kf x) (vf d x) d hk]
      rw [List.map_cons, List.filter_cons, if_pos (by simp [hk])]
      rw [List.append_assoc, List.singleton_append]
      congr 1
      congr 1
      apply List.filter_congr
      intro k hkmem
      have hkx : k ≠ kf x := by
        intro hh
        exact hnd.1 (hh ▸ hkmem)
      simp [hkx, hk]

/-- Claim C6: the hybrid merge is a union-join by item identity: the merged
keys are the sparse ids followed by the vector-only ids (no item dropped,
no numeric re-ranking — items stay in result-set order); an id in both
result sets carries the sparse entry with the vector distance attached
(both scores); an id only in the sparse set keeps `vec_distance = none`;
an id only in the vector set gets `sparse_score = none` with its
distance. -/
theorem c6_hybrid_merge_union_join (sp : List SparseHit) (vec : List VecHit)
    (hsp : (sp.map idOfSparse).Nodup) (hv : (vec.map idOfVec).Nodup) :
    (_tool_hybrid_search_merge sp vec = (mergeDict sp vec).map Prod.snd)
    ∧ ((mergeDict sp vec).map Prod.fst
        = sp.map idOfSparse
          ++ (vec.map idOfVec).filter (fun k => decide (k ∉ sp.map idOfSparse)))
    ∧ (∀ r ∈ sp, ∀ w ∈ vec, idOfVec w = idOfSparse r →
        dictGet (mergeDict sp vec) (idOfSparse r)
          = some { sparseEntry r with vec_distance := some w.distance })
    ∧ (∀ r ∈ sp, idOfSparse r ∉ vec.map idOfVec →
        dictGet (mergeDict sp vec) (idOfSparse r) = some (sparseEntry r))
    ∧ (∀ w ∈ vec, idOfVec w ∉ sp.map idOfSparse →
        dictGet (mergeDict sp vec) (idOfVec w)
          = some { vecBase (idOfVec w) w with vec_distance := some w.distance }) := by
  have hvalV : ∀ (d d' : PyDict) (r : VecHit),
      dictGet d (idOfVec r) = dictGet d' (idOfVec r) → vecEntry d r = vecEntry d' r := by
    intro d d' r h
    rw [vecEntry, vecEntry, h]
  have hd1get : ∀ r ∈ sp,
      dictGet (sp.foldl (fun d r => dictSet (idOfSparse r) (sparseEntry r) d)
        ([] : PyDict)) (idOfSparse r) = some (sparseEntry r) :=
    fun r hr =>
      dictGet_foldl_mem idOfSparse (fun _ r => sparseEntry r)
        (fun _ _ _ _ => rfl) sp [] r hr hsp
  have hd1none : ∀ k, k ∉ sp.map idOfSparse →
      dictGet (sp.foldl (fun d r => dictSet (idOfSparse r) (sparseEntry r) d)
        ([] : PyDict)) k = none :=
    fun k hk =>
      dictGet_foldl_not_mem idOfSparse (fun _ r => sparseEntry r) sp [] k hk
  have hd1keys : (sp.foldl (fun d r => dictSet (idOfSparse r) (sparseEntry r) d)
      ([] : PyDict)).map Prod.fst = sp.map idOfSparse := by
    have h := keys_foldl_dictSet idOfSparse (fun _ r => sparseEntry r) sp [] hsp
    simpa using h
  have hmerge : mergeDict sp vec
      = vec.foldl (fun d r => dictSet (idOfVec r) (vecEntry d r) d)
          (sp.foldl (fun d r => dictSet (idOfSparse r) (sparseEntry r) d) []) := rfl
  refine ⟨rfl, ?_, ?_, ?_, ?_⟩
  · rw [hmerge, keys_foldl_dictSet idOfVec vecEntry vec _ hv, hd1keys]
  · intro r hr w hw heq
    rw [hmerge, ← heq,
      dictGet_foldl_mem idOfVec vecEntry hvalV vec _ w hw hv]
    rw [vecEntry, heq, hd1get r hr]
    rfl
  · intro r hr hnot
    rw [hmerge, dictGet_foldl_not_mem idOfVec vecEntry vec _ _ hnot]
    exact hd1get r hr
  · intro w hw hnot
    rw [hmerge, dictGet_foldl_mem idOfVec vecEntry hvalV vec _ w hw hv]
    rw [vecEntry, hd1none _ hnot]
    rfl

/-- Concrete run of Claim C6's theorem on sparse hits `{c1, c2}` and vector
hits `{c1, c3}`: the merged keys are exactly `c1:1, c2:2, c3:3`, `c1:1`
carries both scores, `c2:2` only the sparse score, `c3:3` only the vector
distance. -/
theorem c6_hybrid_merge_union_join_witness :
    ((mergeDict
        [⟨("c1"), 1, (""), (""), 1⟩, ⟨("c2"), 2, (""), (""), 2⟩]
        [⟨some ("c1:1"), ("c1"), 1, (""), (""), 1⟩,
         ⟨none, ("c3"), 3, (""), (""), 3⟩]).map Prod.fst
      = [("c1:1"), ("c2:2"), ("c3:3")])
    ∧ dictGet (mergeDict
        [⟨("c1"), 1, (""), (""), 1⟩, ⟨("c2"), 2, (""), (""), 2⟩]
        [⟨some ("c1:1"), ("c1"), 1, (""), (""), 1⟩,
         ⟨none, ("c3"), 3, (""), (""), 3⟩]) ("c1:1")
      = some ⟨("c1:1"), ("c1"), 1, (""), (""), some 1, some 1⟩
    ∧ dictGet (mergeDict
        [⟨("c1"), 1, (""), (""), 1⟩, ⟨("c2"), 2, (""), (""), 2⟩]
        [⟨some ("c1:1"), ("c1"), 1, (""), (""), 1⟩,
         ⟨none, ("c3"), 3, (""), (""), 3⟩]) ("c2:2")
      = some ⟨("c2:2"), ("c2"), 2, (""), (""), some 2, none⟩
    ∧ dictGet (mergeDict
        [⟨("c1"), 1, (""), (""), 1⟩, ⟨("c2"), 2, (""), (""), 2⟩]
        [⟨some ("c1:1"), ("c1"), 1, (""), (""), 1⟩,
         ⟨none, ("c3"), 3, (""), (""), 3⟩]) ("c3:3")
      = some ⟨("c3:3"), ("c3"), 3, (""), (""), none, some 3⟩ := by
  have h := c6_hybrid_merge_union_join
    [⟨("c1"), 1, (""), (""), 1⟩, ⟨("c2"), 2, (""), (""), 2⟩]
    [⟨some ("c1:1"), ("c1"), 1, (""), (""), 1⟩, ⟨none, ("c3"), 3, (""), (""), 3⟩]
    (by decide) (by decide)
  refine ⟨h.2.1.trans (by decide), ?_, ?_, ?_⟩
  · have hb := h.2.2.1 ⟨("c1"), 1, (""), (""), 1⟩ (by decide)
      ⟨some ("c1:1"), ("c1"), 1, (""), (""), 1⟩ (by decide) (by decide)
    have : idOfSparse ⟨("c1"), 1, (""), (""), 1⟩ = ("c1:1") := by decide
    rw [this] at hb
    exact hb.trans (by decide)
  · have hs := h.2.2.2.1 ⟨("c2"), 2, (""), (""), 2⟩ (by decide) (by decide)
    have : idOfSparse ⟨("c2"), 2, (""), (""), 2⟩ = ("c2:2") := by decide
    rw [this] at hs
    exact hs.trans (by decide)
  · have hw := h.2.2.2.2 ⟨none, ("c3"), 3, (""), (""), 3⟩ (by decide) (by decide)
    have : idOfVec ⟨none, ("c3"), 3, (""), (""), 3⟩ = ("c3:3") := by decide
    rw [this] at hw
    exact hw.trans (by decide)

/-- Non-key columns of one row of the SQLite `items` table
(schema of `index.build_index_sqlite`). -/
structure SqlFields where
  user : List Char
  assistant : List Char
  user_head : List Char
  assistant_head : List Char
  annotations : List Char
deriving DecidableEq, Repr

/-- `PRIMARY KEY (composer_id, turn_index)`. -/
abbrev SqlKey := (List Char) × Nat

abbrev SqlRow := SqlKey × SqlFields

abbrev SqlTable := List SqlRow

/-- `INSERT ... ON CONFLICT(composer_id, turn_index) DO UPDATE SET ...`:
replace the (unique) row with the same primary key in place, otherwise
append a new row. -/
def upsertTable : SqlTable → SqlRow → SqlTable
  | [], kv => [kv]
  | x :: xs, kv => if x.1 = kv.1 then kv :: xs else x :: upsertTable xs kv

/-- Value the last row with key `k` in `rows` carries (later upserts win). -/
def lastVal : List SqlRow → SqlKey → Option SqlFields
  | [], _ => none
  | r :: rs, k =>
    match lastVal rs k with
    | some v => some v
    | none => if r.1 = k then some r.2 else none

/-- Effect of a row sequence on one pre-existing row: its fields are
overridden by the last upsert with its key, if any. -/
def rowUpdate (rows : List SqlRow) (x : SqlRow) : SqlRow :=
  (x.1, (lastVal rows x.1).getD x.2)

/-- The rows a row sequence appends to a table whose key set is `ks`:
one per first occurrence of a fresh key, carrying the key's last value. -/
def newRows : List SqlRow → List SqlKey → List SqlRow
  | [], _ => []
  | r :: rs, ks =>
    if r.1 ∈ ks then newRows rs ks
    else (r.1, (lastVal rs r.1).getD r.2) :: newRows rs (ks ++ [r.1])

theorem lastVal_cons_ne (r : SqlRow) (rs : List SqlRow) (k : SqlKey) (h : r.1 ≠ k) :
    lastVal (r :: rs) k = lastVal rs k := by
  rw [lastVal]
  cases lastVal rs k with
  | some v => rfl
  | none => simp [h]

theorem lastVal_cons_self (r : SqlRow) (rs : List SqlRow) :
    lastVal (r :: rs) r.1 = some ((lastVal rs r.1).getD r.2) := by
  rw [lastVal]
  cases lastVal rs r.1 with
  | some v => rfl
  | none => simp

theorem upsertTable_not_mem (r : SqlRow) :
    ∀ t : SqlTable, r.1 ∉ t.map Prod.fst → upsertTable t r = t ++ [r] := by
  intro t
  induction t with
  | nil => intro _; rfl
  | cons x xs ih =>
    intro h
    simp only [List.map_cons, List.mem_cons] at h
    push_neg at h
    rw [upsertTable, if_neg (fun hh => h.1 hh.symm), ih h.2]
    rfl

theorem keys_upsertTable_mem (r : SqlRow) :
    ∀ t : SqlTable, r.1 ∈ t.map Prod.fst →
      (upsertTable t r).map Prod.fst = t.map Prod.fst := by
  intro t
  induction t with
  | nil => intro h; simp at h
  | cons x xs ih =>
    intro h
    rw [upsertTable]
    by_cases hx : x.1 = r.1
    · rw [if_pos hx]
      simp [hx]
    · rw [if_neg hx]
      have hmem : r.1 ∈ xs.map Prod.fst := by
        simp only [List.map_cons, List.mem_cons] at h
        rcases h with h | h
        · exact absurd h.symm hx
        · exact h
      simp [ih hmem]

theorem map_rowUpdate_upsert (r : SqlRow) (rs : List SqlRow) :
    ∀ t : SqlTable, (t.map Prod.fst).Nodup → r.1 ∈ t.map Prod.fst →
      (upsertTable t r).map (rowUpdate rs) = t.map (rowUpdate (r :: rs)) := by
  intro t
  induction t with
  | nil => intro _ h; simp at h
  | cons x xs ih =>
    intro hnd hmem
    simp only [List.map_cons, List.nodup_cons] at hnd
    rw [upsertTable]
    by_cases hx : x.1 = r.1
    · rw [if_pos hx]
      rw [List.map_cons, List.map_cons]
      congr 1
      · rw [rowUpdate, rowUpdate, hx, lastVal_cons_self]
        rfl
      · apply List.map_congr_left
        intro y hy
        have hyne : r.1 ≠ y.1 := by
          intro hh
          exact hnd.1 (by
            rw [hx, hh]
            exact List.mem_map_of_mem Prod.fst hy)
        rw [rowUpdate, rowUpdate, lastVal_cons_ne r rs y.1 hyne]
    · rw [if_neg hx]
      have hmem' : r.1 ∈ xs.map Prod.fst := by
        simp only [List.map_cons, List.mem_cons] at hmem
        rcases hmem with h | h
        · exact absurd h.symm hx
        · exact h
      rw [List.map_cons, List.map_cons]
      congr 1
      · rw [rowUpdate, rowUpdate, lastVal_cons_ne r rs x.1 (fun hh => hx hh.symm)]
      · exact ih hnd.2 hmem'

/-- Characterization of a sequence of upserts on a duplicate-free table:
existing rows are updated in place to the sequence's last value for their
key, and genuinely new keys are appended once each, in first-occurrence
order, with their last value. -/
theorem foldl_upsert_char : ∀ (rows : List SqlRow) (t : SqlTable),
    (t.map Prod.fst).Nodup →
    rows.foldl upsertTable t = t.map (rowUpdate rows) ++ newRows rows (t.map Prod.fst) := by
  intro rows
  induction rows with
  | nil =>
    intro t _
    simp only [List.foldl_nil, newRows, List.append_nil]
    have hmap : t.map (rowUpdate []) = t.map id := List.map_congr_left (fun x _ => rfl)
    rw [hmap, List.map_id]
  | cons r rs ih =>
    intro t hnd
    rw [List.foldl_cons]
    by_cases hmem : r.1 ∈ t.map Prod.fst
    · have hkeys := keys_upsertTable_mem r t hmem
      have hnd' : ((upsertTable t r).map Prod.fst).Nodup := by
        rw [hkeys]; exact hnd
      rw [ih _ hnd', hkeys, map_rowUpdate_upsert r rs t hnd hmem]
      rw [newRows, if_pos hmem]
    · have hup := upsertTable_not_mem r t hmem
      have hnd' : ((upsertTable t r).map Prod.fst).Nodup := by
        rw [hup]
        simp [List.nodup_append, hnd, hmem]
      rw [ih _ hnd', hup]
      rw [show ((t ++ [r]).map Prod.fst) = t.map Prod.fst ++ [r.1] by simp]
      rw [List.map_append, newRows, if_neg hmem]
      have hmapt : t.map (rowUpdate rs) = t.map (rowUpdate (r :: rs)) := by
        apply List.map_congr_left
        intro y hy
        have hyne : r.1 ≠ y.1 := by
          intro hh
          exact hmem (hh ▸ List.mem_map_of_mem Prod.fst hy)
        rw [rowUpdate, rowUpdate, lastVal_cons_ne r rs y.1 hyne]
      rw [hmapt, List.append_assoc]
      congr 1

theorem newRows_keys (rows : List SqlRow) :
    ∀ ks : List SqlKey, ((newRows rows ks).map Prod.fst).Nodup
      ∧ ∀ k ∈ (newRows rows ks).map Prod.fst, k ∉ ks := by
  induction rows with
  | nil => intro ks; exact ⟨List.nodup_nil, by simp [newRows]⟩
  | cons r rs ih =>
    intro ks
    rw [newRows]
    by_cases hr : r.1 ∈ ks
    · rw [if_pos hr]
      exact ih ks
    · rw [if_neg hr]
      have h2 := ih (ks ++ [r.1])
      constructor
      · rw [List.map_cons]
        refine List.nodup_cons.mpr ⟨?_, h2.1⟩
        intro hmem
        exact h2.2 _ hmem (by simp)
      · rw [List.map_cons]
        intro k hk
        rcases List.mem_cons.mp hk with rfl | hk
        · exact hr
        · intro hks
          exact h2.2 k hk (by simp [hks])

theorem mem_keys_of_rows (rows : List SqlRow) :
    ∀ (ks : List SqlKey) (r : SqlRow), r ∈ rows →
      r.1 ∈ ks ∨ r.1 ∈ (newRows rows ks).map Prod.fst := by
  induction rows with
  | nil => intro ks r hr; simp at hr
  | cons x rs ih =>
    intro ks r hr
    rw [newRows]
    by_cases hx : x.1 ∈ ks
    · rw [if_pos hx]
      rcases List.mem_cons.mp hr with rfl | hr
      · exact Or.inl hx
      · exact ih ks r hr
    · rw [if_neg hx]
      rcases List.mem_cons.mp hr with rfl | hr
      · right
        rw [List.map_cons]
        exact List.mem_cons_self _ _
      · rcases ih (ks ++ [x.1]) r hr with h | h
        · rcases List.mem_append.mp h with h | h
          · exact Or.inl h
          · right
            simp only [List.mem_singleton] at h
            rw [List.map_cons]
            exact List.mem_cons.mpr (Or.inl h)
        · right
          rw [List.map_cons]
          exact List.mem_cons_of_mem _ h

theorem newRows_nil_of_mem (rows : List SqlRow) :
    ∀ ks : List SqlKey, (∀ r ∈ rows, r.1 ∈ ks) → newRows rows ks = [] := by
  induction rows with
  | nil => intro ks _; rfl
  | cons x rs ih =>
    intro ks h
    rw [newRows, if_pos (h x (List.mem_cons_self _ _))]
    exact ih ks (fun r hr => h r (List.mem_cons_of_mem _ hr))

theorem newRows_lastVal (rows : List SqlRow) :
    ∀ (ks : List SqlKey) (x : SqlRow), x ∈ newRows rows ks →
      lastVal rows x.1 = some x.2 := by
  induction rows with
  | nil => intro ks x h; simp [newRows] at h
  | cons r rs ih =>
    intro ks x h
    rw [newRows] at h
    by_cases hr : r.1 ∈ ks
    · rw [if_pos hr] at h
      have hx := ih ks x h
      rw [lastVal, hx]
    · rw [if_neg hr] at h
      rcases List.mem_cons.mp h with rfl | h
      · exact lastVal_cons_self r rs
      · have hx := ih _ x h
        rw [lastVal, hx]

theorem foldl_upsert_keys (rows : List SqlRow) (t : SqlTable)
    (hnd : (t.map Prod.fst).Nodup) :
    (rows.foldl upsertTable t).map Prod.fst
      = t.map Prod.fst ++ (newRows rows (t.map Prod.fst)).map Prod.fst := by
  rw [foldl_upsert_char rows t hnd, List.map_append, List.map_map]
  congr 1

theorem foldl_upsert_keys_nodup (rows : List SqlRow) (t : SqlTable)
    (hnd : (t.map Prod.fst).Nodup) :
    ((rows.foldl upsertTable t).map Prod.fst).Nodup := by
  rw [foldl_upsert_keys rows t hnd]
  have hnr := newRows_keys rows (t.map Prod.fst)
  rw [List.nodup_append]
  exact ⟨hnd, hnr.1, fun a ha hb => (hnr.2 a hb) ha⟩

/-- Replaying an upsert sequence leaves a duplicate-free table unchanged. -/
theorem foldl_upsert_idem (rows : List SqlRow) (t : SqlTable)
    (hnd : (t.map Prod.fst).Nodup) :
    rows.foldl upsertTable (rows.foldl upsertTable t) = rows.foldl upsertTable t := by
  have hchar := foldl_upsert_char rows t hnd
  have hkeys1 := foldl_upsert_keys rows t hnd
  have hnd1 := foldl_upsert_keys_nodup rows t hnd
  rw [foldl_upsert_char rows _ hnd1]
  have hnew2 : newRows rows ((rows.foldl upsertTable t).map Prod.fst) = [] := by
    apply newRows_nil_of_mem
    intro r hr
    rw [hkeys1]
    rcases mem_keys_of_rows rows (t.map Prod.fst) r hr with h | h
    · exact List.mem_append_left _ h
    · exact List.mem_append_right _ h
  rw [hnew2, List.append_nil]
  conv_lhs => rw [hchar]
  conv_rhs => rw [hchar]
  rw [List.map_append, List.map_map]
  congr 1
  · apply List.map_congr_left
    intro x _
    show rowUpdate rows (rowUpdate rows x) = rowUpdate rows x
    simp only [rowUpdate]
    cases h : lastVal rows x.1 <;> simp [h]
  · have hfix : ∀ x ∈ newRows rows (t.map Prod.fst), rowUpdate rows x = x := by
      intro x hx
      rw [rowUpdate, newRows_lastVal rows _ x hx]
      rfl
    rw [List.map_congr_left hfix]
    simp

/-- Python `str.splitlines()` for newline-separated text (`'\n'` is the
only line separator in play): no trailing empty line, empty string gives
no lines. -/
def pySplitLines (l : List Char) : List (List Char) :=
  if l.isEmpty then []
  else if l.getLast? = some '\n' then (l.splitOn '\n').dropLast
  else l.splitOn '\n'

/-- `rag._head`: first line of the stripped text, truncated to `n`. -/
def _head (text : List Char) (n : Nat) : List Char :=
  match pySplitLines (pyStrip text) with
  | [] => []
  | l0 :: _ => l0.take n

/-- One per-turn item of `rag.build_turn_items` (annotations already
serialized; their generator `ann` is an opaque deterministic function). -/
structure TurnItem where
  composer_id : List Char
  turn_index : Nat
  user : List Char
  assistant : List Char
  user_head : List Char
  assistant_head : List Char
  annotations : List Char
deriving DecidableEq, Repr

/-- `rag.build_turn_items`, parametric in the annotation pass
(`annotate_pair_rich` plus JSON serialization). -/
def build_turn_items (ann : Pair → List Char) (messages : List Msg) : List TurnItem :=
  (build_qa_pairs messages).map fun pr =>
    { composer_id := pr.composer_id, turn_index := pr.turn_index,
      user := pr.user, assistant := pr.assistant,
      user_head := _head pr.user 160, assistant_head := _head pr.assistant 200,
      annotations := ann pr }

/-- `items[:max_turns_per]` / `limit_composers` truncation. -/
def applyLimit : Option Nat → List α → List α
  | none, l => l
  | some k, l => l.take k

def conversationItems (ann : Pair → List Char) (maxTurns : Option Nat)
    (conv : List Msg) : List TurnItem :=
  applyLimit maxTurns (build_turn_items ann conv)

/-- `if repo_hint: it["repo"] = repo_hint` on a JSONL line. -/
def attachRepo (hint : Option (List Char)) (it : TurnItem) :
    TurnItem × Option (List Char) :=
  (it,
   match hint with
   | some h => if h.isEmpty then none else some h
   | none => none)

/-- `index.build_index`: the source pass is the list of conversations the
builder iterates (each as its reconstructed messages plus its
`extract_repo_hint` result); the JSONL file is opened with mode `"w"`, so
the previous content `oldContent` is truncated away and the written lines
are a pure function of the source. -/
def build_index (ann : Pair → List Char) (limitC maxTurns : Option Nat)
    (src : List (List Msg × Option (List Char)))
    (oldContent : List (TurnItem × Option (List Char))) :
    List (TurnItem × Option (List Char)) :=
  (applyLimit limitC src).flatMap fun conv =>
    (conversationItems ann maxTurns conv.1).map (attachRepo conv.2)

/-- Row written by `index.build_index_sqlite` for one item (the `items`
table has no repo column, so the hint is dropped on this path). -/
def itemRow (it : TurnItem) : SqlRow :=
  ((it.composer_id, it.turn_index),
   ⟨it.user, it.assistant, it.user_head, it.assistant_head, it.annotations⟩)

/-- `index.build_index_sqlite`: upsert every per-turn row into the keyed
`items` table, keyed on `(composer_id, turn_index)`. -/
def build_index_sqlite (ann : Pair → List Char) (limitC maxTurns : Option Nat)
    (src : List (List Msg × Option (List Char))) (t0 : SqlTable) : SqlTable :=
  (((applyLimit limitC src).flatMap fun conv =>
      conversationItems ann maxTurns conv.1).map itemRow).foldl upsertTable t0

/-- Claim C3: the index builder is idempotent on an unchanged source:
`build_index` fully rewrites the JSONL artifact (the output never depends
on the previous file content, so a rerun reproduces it exactly), and
`build_index_sqlite` upserts on the `(composer_id, turn_index)` key, so a
rerun leaves every row of a duplicate-free table unchanged — no residual
stale rows, no duplicate keys, every key mapping to the same field values
as after the first run. -/
theorem c3_index_builder_idempotent (ann : Pair → List Char)
    (limitC maxTurns : Option Nat) (src : List (List Msg × Option (List Char))) :
    (∀ old1 old2 : List (TurnItem × Option (List Char)),
       build_index ann limitC maxTurns src old1
         = build_index ann limitC maxTurns src old2)
    ∧ (∀ old : List (TurnItem × Option (List Char)),
       build_index ann limitC maxTurns src (build_index ann limitC maxTurns src old)
         = build_index ann limitC maxTurns src old)
    ∧ (∀ t0 : SqlTable, (t0.map Prod.fst).Nodup →
       build_index_sqlite ann limitC maxTurns src
           (build_index_sqlite ann limitC maxTurns src t0)
         = build_index_sqlite ann limitC maxTurns src t0)
    ∧ (∀ t0 : SqlTable, (t0.map Prod.fst).Nodup →
       ((build_index_sqlite ann limitC maxTurns src t0).map Prod.fst).Nodup) := by
  refine ⟨fun _ _ => rfl, fun _ => rfl, ?_, ?_⟩
  · intro t0 h
    exact foldl_upsert_idem _ t0 h
  · intro t0 h
    exact foldl_upsert_keys_nodup _ t0 h

/-- Concrete run of Claim C3's theorem on a one-conversation source and an
empty target: rebuilding the SQLite table over its own output reproduces
it, its keys are duplicate-free, and the JSONL artifact is reproduced on a
rerun. -/
theorem c3_index_builder_idempotent_witness :
    build_index_sqlite (fun _ => []) none none
        [([⟨("c").data, userRole, ("hi").data⟩, ⟨("c").data, asstRole, ("ok").data⟩],
          some (("repo").data))]
        (build_index_sqlite (fun _ => []) none none
          [([⟨("c").data, userRole, ("hi").data⟩, ⟨("c").data, asstRole, ("ok").data⟩],
            some (("repo").data))] [])
      = build_index_sqlite (fun _ => []) none none
          [([⟨("c").data, userRole, ("hi").data⟩, ⟨("c").data, asstRole, ("ok").data⟩],
            some (("repo").data))] []
    ∧ ((build_index_sqlite (fun _ => []) none none
          [([⟨("c").data, userRole, ("hi").data⟩, ⟨("c").data, asstRole, ("ok").data⟩],
            some (("repo").data))] []).map Prod.fst).Nodup
    ∧ build_index (fun _ => []) none none
        [([⟨("c").data, userRole, ("hi").data⟩, ⟨("c").data, asstRole, ("ok").data⟩],
          some (("repo").data))]
        (build_index (fun _ => []) none none
          [([⟨("c").data, userRole, ("hi").data⟩, ⟨("c").data, asstRole, ("ok").data⟩],
            some (("repo").data))] [])
      = build_index (fun _ => []) none none
          [([⟨("c").data, userRole, ("hi").data⟩, ⟨("c").data, asstRole, ("ok").data⟩],
            some (("repo").data))] [] := by
  have h := c3_index_builder_idempotent (fun _ => []) none none
    [([⟨("c").data, userRole, ("hi").data⟩, ⟨("c").data, asstRole, ("ok").data⟩],
      some (("repo").data))]
  exact ⟨h.2.2.1 [] (by simp), h.2.2.2 [] (by simp), h.2.1 []⟩

end CursorExplorer
